import Mathlib

/-!
# Verification of the DBSP core (database-stream-processor)

A shallow embedding of the data model and operators of the DBSP engine,
with proofs of the specification claims about them.

Z-sets are embedded as the `OrderedLeaf<K, R>` trie from
`src/layers/ordered_leaf.rs`: a vector of `(key, weight)` pairs.  A valid
batch keeps keys strictly ascending and elides zero weights.  Weights are
embedded as `Int` (the code is generic over `ZRingValue`; signed machine
integers are its canonical instance, and the ordering predicates `ge0`/`le0`
translate to `0 ≤ ·` and `· ≤ 0` on `Int`).
-/

namespace DBSP

/-- A Z-set in trie representation: the `vals` vector of `OrderedLeaf<K, R>`
(`src/layers/ordered_leaf.rs`). -/
abbrev ZList (K : Type) := List (K × Int)

/-- The weight a list of `(key, weight)` tuples assigns to key `k`: the sum of
the weights of all tuples carrying `k`.  On a consolidated batch this is the
weight stored for `k` (or `0` when `k` is absent); on an unconsolidated tuple
list it is the accumulated weight. -/
def wsum {K : Type} [DecidableEq K] (l : ZList K) (k : K) : Int :=
  (l.map (fun p => if p.1 = k then p.2 else 0)).sum

/-- Keys are strictly ascending — the batch ordering invariant. -/
def StrictKeys {K : Type} [LT K] (l : ZList K) : Prop :=
  l.Pairwise (fun p q => p.1 < q.1)

/-- The batch invariant of an ordered leaf: strictly ascending keys and no
zero-weight entry (zero elision). -/
def IsZSet {K : Type} [LT K] (l : ZList K) : Prop :=
  StrictKeys l ∧ ∀ p ∈ l, p.2 ≠ 0

instance {K : Type} [LT K] [DecidableRel (· < · : K → K → Prop)] :
    DecidablePred (StrictKeys (K := K)) := fun l =>
  inferInstanceAs (Decidable (l.Pairwise _))

instance {K : Type} [LT K] [DecidableRel (· < · : K → K → Prop)] (l : ZList K) :
    Decidable (IsZSet l) :=
  inferInstanceAs (Decidable (_ ∧ _))

section Basic

variable {K : Type} [LinearOrder K]

theorem wsum_nil (k : K) : wsum ([] : ZList K) k = 0 := rfl

theorem wsum_cons (p : K × Int) (l : ZList K) (k : K) :
    wsum (p :: l) k = (if p.1 = k then p.2 else 0) + wsum l k := by
  simp [wsum]

theorem wsum_append (l₁ l₂ : ZList K) (k : K) :
    wsum (l₁ ++ l₂) k = wsum l₁ k + wsum l₂ k := by
  simp [wsum]

/-- If no tuple in `l` carries key `k`, then `l` assigns weight `0` to `k`. -/
theorem wsum_eq_zero_of_not_mem {l : ZList K} {k : K}
    (h : ∀ p ∈ l, p.1 ≠ k) : wsum l k = 0 := by
  induction l with
  | nil => rfl
  | cons p t ih =>
    rw [wsum_cons, if_neg (h p (List.mem_cons_self p t)), ih, add_zero]
    exact fun q hq => h q (List.mem_cons_of_mem p hq)

theorem isZSet_nil : IsZSet ([] : ZList K) :=
  ⟨List.Pairwise.nil, by simp⟩

theorem isZSet_cons_iff {p : K × Int} {l : ZList K} :
    IsZSet (p :: l) ↔ (∀ q ∈ l, p.1 < q.1) ∧ p.2 ≠ 0 ∧ IsZSet l := by
  constructor
  · rintro ⟨hs, hz⟩
    rw [StrictKeys, List.pairwise_cons] at hs
    exact ⟨hs.1, hz p (List.mem_cons_self p l),
      hs.2, fun q hq => hz q (List.mem_cons_of_mem p hq)⟩
  · rintro ⟨hlt, hp, hs, hz⟩
    refine ⟨List.pairwise_cons.mpr ⟨hlt, hs⟩, ?_⟩
    intro q hq
    rcases List.mem_cons.mp hq with h | h
    · exact h ▸ hp
    · exact hz q h

/-- On a strictly sorted list, keys strictly below every entry carry weight 0. -/
theorem wsum_eq_zero_of_lt {l : ZList K} {k : K}
    (h : ∀ p ∈ l, k < p.1) : wsum l k = 0 :=
  wsum_eq_zero_of_not_mem (fun p hp => (ne_of_lt (h p hp)).symm)

/-- Canonicity: two valid batches assigning the same weight to every key are
equal.  This is the injectivity of the trie representation, used to turn
pointwise weight equalities into equalities of batches. -/
theorem zlist_ext {l₁ l₂ : ZList K} (h₁ : IsZSet l₁) (h₂ : IsZSet l₂)
    (h : ∀ k, wsum l₁ k = wsum l₂ k) : l₁ = l₂ := by
  induction l₁ generalizing l₂ with
  | nil =>
    cases l₂ with
    | nil => rfl
    | cons q t =>
      exfalso
      rcases isZSet_cons_iff.mp h₂ with ⟨hlt, hq, ht⟩
      have := h q.1
      rw [wsum_nil, wsum_cons, if_pos rfl, wsum_eq_zero_of_lt hlt, add_zero] at this
      exact hq this.symm
  | cons p t ih =>
    rcases isZSet_cons_iff.mp h₁ with ⟨hlt₁, hp, ht₁⟩
    cases l₂ with
    | nil =>
      exfalso
      have := h p.1
      rw [wsum_nil, wsum_cons, if_pos rfl, wsum_eq_zero_of_lt hlt₁, add_zero] at this
      exact hp this
    | cons q t₂ =>
      rcases isZSet_cons_iff.mp h₂ with ⟨hlt₂, hq, ht₂⟩
      have hkey : p.1 = q.1 := by
        by_contra hne
        rcases lt_or_gt_of_ne hne with hlt | hgt
        · have := h p.1
          rw [wsum_cons, if_pos rfl, wsum_eq_zero_of_lt hlt₁,
            wsum_cons, if_neg (ne_of_gt hlt), wsum_eq_zero_of_lt
              (fun r hr => lt_trans hlt (hlt₂ r hr))] at this
          exact hp (by omega)
        · have := h q.1
          rw [wsum_cons, if_neg (ne_of_gt hgt), wsum_eq_zero_of_lt
              (fun r hr => lt_trans hgt (hlt₁ r hr)),
            wsum_cons, if_pos rfl, wsum_eq_zero_of_lt hlt₂] at this
          exact hq (by omega)
      have hw : p.2 = q.2 := by
        have := h p.1
        rw [wsum_cons, if_pos rfl, wsum_eq_zero_of_lt hlt₁, add_zero,
          wsum_cons, if_pos hkey.symm, wsum_eq_zero_of_lt
            (fun r hr => hkey ▸ hlt₂ r hr), add_zero] at this
        exact this
      have htails : t = t₂ := by
        refine ih ht₁ ht₂ (fun k => ?_)
        by_cases hk : k = p.1
        · subst hk
          rw [wsum_eq_zero_of_lt hlt₁, wsum_eq_zero_of_lt (fun r hr => hkey ▸ hlt₂ r hr)]
        · have := h k
          rw [wsum_cons, if_neg (fun hh => hk hh.symm), wsum_cons,
            if_neg (fun hh => hk (hkey ▸ hh.symm))] at this
          omega
      have hpq : p = q := Prod.ext hkey hw
      rw [hpq, htails]

end Basic

section Merge

variable {K : Type} [LinearOrder K]

/-- `OrderedLeafBuilder::push_merge` (`src/layers/ordered_leaf.rs`, lines
175–241): the merge walk over two ordered leaves.  On distinct heads it copies
the smaller run (the source gallops with `advance` and copies at most 1000
entries per outer iteration, which produces the same output as copying one
entry at a time); on equal heads it adds the weights and drops the entry if
the sum is zero.  The trailing `copy_range` calls are the `l, []` cases. -/
def push_merge : ZList K → ZList K → ZList K
  | [], l₂ => l₂
  | l₁, [] => l₁
  | (k₁, w₁) :: r₁, (k₂, w₂) :: r₂ =>
    if k₁ < k₂ then (k₁, w₁) :: push_merge r₁ ((k₂, w₂) :: r₂)
    else if k₂ < k₁ then (k₂, w₂) :: push_merge ((k₁, w₁) :: r₁) r₂
    else
      if w₁ + w₂ = 0 then push_merge r₁ r₂
      else (k₁, w₁ + w₂) :: push_merge r₁ r₂

theorem push_merge_nil_left (l : ZList K) : push_merge [] l = l := by
  cases l <;> simp [push_merge]

theorem push_merge_nil_right (l : ZList K) : push_merge l [] = l := by
  cases l <;> simp [push_merge]

/-- A map of each tuple that is additive in the weight sums to the same total
over a merge as over the two inputs.  This is the abstract shape behind all
pointwise-weight lemmas about `push_merge`. -/
theorem sumBy_push_merge (h : K → Int → Int)
    (hadd : ∀ k a b, h k (a + b) = h k a + h k b) (hzero : ∀ k, h k 0 = 0)
    (l₁ l₂ : ZList K) :
    ((push_merge l₁ l₂).map (fun p => h p.1 p.2)).sum =
      (l₁.map (fun p => h p.1 p.2)).sum + (l₂.map (fun p => h p.1 p.2)).sum := by
  induction l₁, l₂ using push_merge.induct with
  | case1 l₂ => simp [push_merge_nil_left]
  | case2 l₁ h₁ => rw [push_merge_nil_right]; simp
  | case3 k₁ w₁ r₁ k₂ w₂ r₂ hlt ih =>
    rw [push_merge, if_pos hlt]
    simp only [List.map_cons, List.sum_cons] at *
    omega
  | case4 k₁ w₁ r₁ k₂ w₂ r₂ hlt hgt ih =>
    rw [push_merge, if_neg hlt, if_pos hgt]
    simp only [List.map_cons, List.sum_cons] at *
    omega
  | case5 k₁ w₁ r₁ k₂ w₂ r₂ hlt hgt hz ih =>
    rw [push_merge, if_neg hlt, if_neg hgt, if_pos hz]
    have hk : k₁ = k₂ := le_antisymm (not_lt.mp hgt) (not_lt.mp hlt)
    subst hk
    have : h k₁ w₁ + h k₁ w₂ = 0 := by
      rw [← hadd, hz, hzero]
    simp only [List.map_cons, List.sum_cons] at *
    omega
  | case6 k₁ w₁ r₁ k₂ w₂ r₂ hlt hgt hz ih =>
    rw [push_merge, if_neg hlt, if_neg hgt, if_neg hz]
    have hk : k₁ = k₂ := le_antisymm (not_lt.mp hgt) (not_lt.mp hlt)
    subst hk
    have : h k₁ (w₁ + w₂) = h k₁ w₁ + h k₁ w₂ := hadd k₁ w₁ w₂
    simp only [List.map_cons, List.sum_cons] at *
    omega

/-- The merge computes the pointwise weight sum. -/
theorem wsum_push_merge (l₁ l₂ : ZList K) (k : K) :
    wsum (push_merge l₁ l₂) k = wsum l₁ k + wsum l₂ k := by
  have := sumBy_push_merge (fun k' w => if k' = k then w else 0)
    (by intro k' a b; by_cases h : k' = k <;> simp [h])
    (by intro k'; by_cases h : k' = k <;> simp [h]) l₁ l₂
  simpa [wsum] using this

/-- Every entry of the merge has a key bounded below by any common lower bound
of the two inputs. -/
theorem push_merge_lower_bound {l₁ l₂ : ZList K} {x : K}
    (h₁ : ∀ p ∈ l₁, x < p.1) (h₂ : ∀ p ∈ l₂, x < p.1) :
    ∀ p ∈ push_merge l₁ l₂, x < p.1 := by
  induction l₁, l₂ using push_merge.induct with
  | case1 l₂ => rw [push_merge_nil_left]; exact h₂
  | case2 l₁ h => rw [push_merge_nil_right]; exact h₁
  | case3 k₁ w₁ r₁ k₂ w₂ r₂ hlt ih =>
    rw [push_merge, if_pos hlt]
    intro p hp
    rcases List.mem_cons.mp hp with h | h
    · exact h ▸ h₁ (k₁, w₁) (List.mem_cons_self _ _)
    · exact ih (fun q hq => h₁ q (List.mem_cons_of_mem _ hq)) h₂ p h
  | case4 k₁ w₁ r₁ k₂ w₂ r₂ hlt hgt ih =>
    rw [push_merge, if_neg hlt, if_pos hgt]
    intro p hp
    rcases List.mem_cons.mp hp with h | h
    · exact h ▸ h₂ (k₂, w₂) (List.mem_cons_self _ _)
    · exact ih h₁ (fun q hq => h₂ q (List.mem_cons_of_mem _ hq)) p h
  | case5 k₁ w₁ r₁ k₂ w₂ r₂ hlt hgt hz ih =>
    rw [push_merge, if_neg hlt, if_neg hgt, if_pos hz]
    exact ih (fun q hq => h₁ q (List.mem_cons_of_mem _ hq))
      (fun q hq => h₂ q (List.mem_cons_of_mem _ hq))
  | case6 k₁ w₁ r₁ k₂ w₂ r₂ hlt hgt hz ih =>
    rw [push_merge, if_neg hlt, if_neg hgt, if_neg hz]
    intro p hp
    rcases List.mem_cons.mp hp with h | h
    · exact h ▸ h₁ (k₁, w₁) (List.mem_cons_self _ _)
    · exact ih (fun q hq => h₁ q (List.mem_cons_of_mem _ hq))
        (fun q hq => h₂ q (List.mem_cons_of_mem _ hq)) p h

/-- The merge of two valid batches is a valid batch: ordering and zero
elision are preserved. -/
theorem isZSet_push_merge {l₁ l₂ : ZList K} (h₁ : IsZSet l₁) (h₂ : IsZSet l₂) :
    IsZSet (push_merge l₁ l₂) := by
  induction l₁, l₂ using push_merge.induct with
  | case1 l₂ => rw [push_merge_nil_left]; exact h₂
  | case2 l₁ h => rw [push_merge_nil_right]; exact h₁
  | case3 k₁ w₁ r₁ k₂ w₂ r₂ hlt ih =>
    rw [push_merge, if_pos hlt]
    rcases isZSet_cons_iff.mp h₁ with ⟨hb₁, hw₁, ht₁⟩
    rcases isZSet_cons_iff.mp h₂ with ⟨hb₂, hw₂, ht₂⟩
    refine isZSet_cons_iff.mpr ⟨?_, hw₁, ih ht₁ h₂⟩
    refine push_merge_lower_bound hb₁ ?_
    intro p hp
    rcases List.mem_cons.mp hp with h | h
    · exact h ▸ hlt
    · exact lt_trans hlt (hb₂ p h)
  | case4 k₁ w₁ r₁ k₂ w₂ r₂ hlt hgt ih =>
    rw [push_merge, if_neg hlt, if_pos hgt]
    rcases isZSet_cons_iff.mp h₁ with ⟨hb₁, hw₁, ht₁⟩
    rcases isZSet_cons_iff.mp h₂ with ⟨hb₂, hw₂, ht₂⟩
    refine isZSet_cons_iff.mpr ⟨?_, hw₂, ih h₁ ht₂⟩
    refine push_merge_lower_bound ?_ hb₂
    intro p hp
    rcases List.mem_cons.mp hp with h | h
    · exact h ▸ hgt
    · exact lt_trans hgt (hb₁ p h)
  | case5 k₁ w₁ r₁ k₂ w₂ r₂ hlt hgt hz ih =>
    rw [push_merge, if_neg hlt, if_neg hgt, if_pos hz]
    rcases isZSet_cons_iff.mp h₁ with ⟨hb₁, hw₁, ht₁⟩
    rcases isZSet_cons_iff.mp h₂ with ⟨hb₂, hw₂, ht₂⟩
    exact ih ht₁ ht₂
  | case6 k₁ w₁ r₁ k₂ w₂ r₂ hlt hgt hz ih =>
    rw [push_merge, if_neg hlt, if_neg hgt, if_neg hz]
    have hk : k₁ = k₂ := le_antisymm (not_lt.mp hgt) (not_lt.mp hlt)
    subst hk
    rcases isZSet_cons_iff.mp h₁ with ⟨hb₁, hw₁, ht₁⟩
    rcases isZSet_cons_iff.mp h₂ with ⟨hb₂, hw₂, ht₂⟩
    exact isZSet_cons_iff.mpr ⟨push_merge_lower_bound hb₁ hb₂, hz, ih ht₁ ht₂⟩

/-- Negation of an ordered leaf (`impl Neg for OrderedLeaf`,
`src/layers/ordered_leaf.rs` lines 79–91): negate every weight in place. -/
def zneg (l : ZList K) : ZList K := l.map (fun p => (p.1, -p.2))

theorem wsum_zneg (l : ZList K) (k : K) : wsum (zneg l) k = -wsum l k := by
  induction l with
  | nil => rfl
  | cons p t ih =>
    rw [zneg, List.map_cons, ← zneg]
    rw [wsum_cons, wsum_cons, ih]
    by_cases h : p.1 = k
    · simp [h]; omega
    · simp [h]

theorem isZSet_zneg {l : ZList K} (h : IsZSet l) : IsZSet (zneg l) := by
  rcases h with ⟨hs, hz⟩
  constructor
  · exact List.pairwise_map.mpr (hs.imp (fun {p q} h => h))
  · intro p hp
    rcases List.mem_map.mp hp with ⟨q, hq, rfl⟩
    simpa using hz q hq

end Merge

section Consolidate

variable {K : Type} [LinearOrder K]

/-- Keys are ascending, possibly with duplicates: the state of
`consolidate_slice` after its initial sort. -/
def SortedKeysLe (l : ZList K) : Prop :=
  l.Pairwise (fun p q => p.1 ≤ q.1)

/-- The coalescing pass of `consolidate_slice` (`src/layers/ordered_leaf.rs`,
lines 363–396), carrying the accumulation slot `(k, acc)` (the entry at
`offset` in the source): an adjacent entry with the same key is added into the
slot; on a key change the slot is emitted unless its weight accumulated to
zero (in the source: `offset` is not advanced past a zero entry, so the entry
is overwritten). -/
def coalesceGo (k : K) (acc : Int) : ZList K → ZList K
  | [] => if acc = 0 then [] else [(k, acc)]
  | (k', w') :: rest =>
    if k' = k then coalesceGo k (acc + w') rest
    else (if acc = 0 then [] else [(k, acc)]) ++ coalesceGo k' w' rest

/-- The full coalescing loop of `consolidate_slice`, starting with the first
entry in the accumulation slot. -/
def coalesce : ZList K → ZList K
  | [] => []
  | (k, w) :: rest => coalesceGo k w rest

/-- `consolidate_slice` (`src/layers/ordered_leaf.rs`, lines 352–397): sort by
key, then coalesce adjacent equal keys by weight addition, dropping entries
whose weight accumulated to zero.  The source sorts with `sort_unstable_by`
comparing keys only; any key-sorted permutation coalesces to the same result
because each key's weights are summed, so the stable insertion sort is a
faithful model. -/
def consolidate_slice (l : ZList K) : ZList K :=
  coalesce (l.insertionSort (fun p q => p.1 ≤ q.1))

/-- Weight of the emitted accumulation slot. -/
theorem wsum_slot (k : K) (acc : Int) (x : K) :
    wsum (if acc = 0 then ([] : ZList K) else [(k, acc)]) x =
      if k = x then acc else 0 := by
  by_cases hz : acc = 0
  · simp [hz, wsum_nil]
  · rw [if_neg hz, wsum_cons, wsum_nil, add_zero]

theorem wsum_coalesceGo (k : K) (acc : Int) (rest : ZList K) (x : K) :
    wsum (coalesceGo k acc rest) x =
      (if k = x then acc else 0) + wsum rest x := by
  induction rest generalizing k acc with
  | nil =>
    rw [coalesceGo, wsum_slot, wsum_nil, add_zero]
  | cons q rest ih =>
    obtain ⟨k', w'⟩ := q
    by_cases h : k' = k
    · subst h
      rw [coalesceGo, if_pos rfl, ih, wsum_cons]
      split_ifs <;> omega
    · rw [coalesceGo, if_neg h, wsum_append, ih, wsum_slot, wsum_cons]

theorem lb_coalesceGo {rest : ZList K} {k : K} (acc : Int)
    (hs : SortedKeysLe rest) (hlb : ∀ p ∈ rest, k ≤ p.1) :
    ∀ p ∈ coalesceGo k acc rest, k ≤ p.1 := by
  induction rest generalizing k acc with
  | nil =>
    intro p hp
    rw [coalesceGo] at hp
    by_cases hz : acc = 0
    · rw [if_pos hz] at hp; exact absurd hp (List.not_mem_nil p)
    · rw [if_neg hz, List.mem_singleton] at hp
      exact hp ▸ le_refl k
  | cons q rest ih =>
    obtain ⟨k', w'⟩ := q
    rw [SortedKeysLe, List.pairwise_cons] at hs
    intro p hp
    by_cases h : k' = k
    · subst h
      rw [coalesceGo, if_pos rfl] at hp
      exact ih (acc + w') hs.2 hs.1 p hp
    · rw [coalesceGo, if_neg h, List.mem_append] at hp
      rcases hp with hp | hp
      · by_cases hz : acc = 0
        · rw [if_pos hz] at hp; exact absurd hp (List.not_mem_nil p)
        · rw [if_neg hz, List.mem_singleton] at hp
          exact hp ▸ le_refl k
      · have hk' : k ≤ k' := hlb (k', w') (List.mem_cons_self _ _)
        exact le_trans hk' (ih w' hs.2 hs.1 p hp)

theorem isZSet_coalesceGo {rest : ZList K} {k : K} (acc : Int)
    (hs : SortedKeysLe rest) (hlb : ∀ p ∈ rest, k ≤ p.1) :
    IsZSet (coalesceGo k acc rest) := by
  induction rest generalizing k acc with
  | nil =>
    rw [coalesceGo]
    by_cases hz : acc = 0
    · rw [if_pos hz]; exact isZSet_nil
    · rw [if_neg hz]
      exact isZSet_cons_iff.mpr ⟨by simp, hz, isZSet_nil⟩
  | cons q rest ih =>
    obtain ⟨k', w'⟩ := q
    rw [SortedKeysLe, List.pairwise_cons] at hs
    by_cases h : k' = k
    · subst h
      rw [coalesceGo, if_pos rfl]
      exact ih (acc + w') hs.2 hs.1
    · rw [coalesceGo, if_neg h]
      have hklt : k < k' :=
        lt_of_le_of_ne (hlb (k', w') (List.mem_cons_self _ _)) (fun hh => h hh.symm)
      by_cases hz : acc = 0
      · rw [if_pos hz, List.nil_append]
        exact ih w' hs.2 hs.1
      · rw [if_neg hz, List.singleton_append]
        refine isZSet_cons_iff.mpr ⟨?_, hz, ih w' hs.2 hs.1⟩
        intro q hq
        exact lt_of_lt_of_le hklt (lb_coalesceGo w' hs.2 hs.1 q hq)

theorem wsum_coalesce (l : ZList K) (x : K) : wsum (coalesce l) x = wsum l x := by
  cases l with
  | nil => rfl
  | cons p rest =>
    obtain ⟨k, w⟩ := p
    rw [coalesce, wsum_coalesceGo, wsum_cons]

theorem isZSet_coalesce {l : ZList K} (hs : SortedKeysLe l) : IsZSet (coalesce l) := by
  cases l with
  | nil => exact isZSet_nil
  | cons p rest =>
    obtain ⟨k, w⟩ := p
    rw [SortedKeysLe, List.pairwise_cons] at hs
    exact isZSet_coalesceGo w hs.2 hs.1

instance : IsTotal (K × Int) (fun p q : K × Int => p.1 ≤ q.1) :=
  ⟨fun a b => le_total a.1 b.1⟩

instance : IsTrans (K × Int) (fun p q : K × Int => p.1 ≤ q.1) :=
  ⟨fun _ _ _ h₁ h₂ => le_trans h₁ h₂⟩

/-- Permutation invariance of pointwise weights: sorting does not change the
accumulated weight of any key. -/
theorem wsum_perm {l₁ l₂ : ZList K} (h : l₁.Perm l₂) (k : K) :
    wsum l₁ k = wsum l₂ k :=
  (h.map _).sum_eq

theorem wsum_consolidate_slice (l : ZList K) (x : K) :
    wsum (consolidate_slice l) x = wsum l x := by
  rw [consolidate_slice, wsum_coalesce]
  exact wsum_perm (List.perm_insertionSort _ l) x

theorem isZSet_consolidate_slice (l : ZList K) : IsZSet (consolidate_slice l) :=
  isZSet_coalesce (List.sorted_insertionSort _ l)

/-- On a valid batch, a key appears among the entries iff its weight is
non-zero. -/
theorem mem_key_iff_wsum {l : ZList K} (h : IsZSet l) (k : K) :
    (∃ p ∈ l, p.1 = k) ↔ wsum l k ≠ 0 := by
  induction l with
  | nil => simp [wsum_nil]
  | cons p t ih =>
    rcases isZSet_cons_iff.mp h with ⟨hb, hw, ht⟩
    rw [wsum_cons]
    by_cases hk : p.1 = k
    · subst hk
      rw [if_pos rfl, wsum_eq_zero_of_lt hb, add_zero]
      simp only [ne_eq, hw, not_false_iff, iff_true]
      exact ⟨p, List.mem_cons_self p t, rfl⟩
    · rw [if_neg hk, zero_add, ← ih ht]
      constructor
      · rintro ⟨q, hq, rfl⟩
        rcases List.mem_cons.mp hq with h' | h'
        · exact absurd (congrArg Prod.fst h').symm hk
        · exact ⟨q, h', rfl⟩
      · rintro ⟨q, hq, rfl⟩
        exact ⟨q, List.mem_cons_of_mem p hq, rfl⟩

/-- `UnorderedLeafBuilder::done` (`src/layers/ordered_leaf.rs`, lines
278–282): the tuple builder's state is the vector of pushed tuples (in push
order) with `boundary = 0` when no intermediate boundary was requested;
`done` runs `boundary()`, which consolidates the entire vector, and wraps the
result in an `OrderedLeaf`. -/
def unorderedLeafBuilder_done (vals : ZList K) : ZList K :=
  consolidate_slice vals

end Consolidate

section ClaimC4

variable {K : Type} [LinearOrder K]

/-- C4: For every sequence of `(key, weight)` tuples pushed in arbitrary order
into `UnorderedLeafBuilder`, the trie returned by `done()` has strictly
ascending keys and no zero-weight entry (`IsZSet`), maps each key to the sum
of all weights pushed for that key (`wsum` is preserved), and contains a key
iff the pushed weights for it do not sum to zero. -/
theorem unordered_builder_done_consolidates (vals : ZList K) :
    IsZSet (unorderedLeafBuilder_done vals) ∧
      (∀ k, wsum (unorderedLeafBuilder_done vals) k = wsum vals k) ∧
      (∀ k, (∃ p ∈ unorderedLeafBuilder_done vals, p.1 = k) ↔ wsum vals k ≠ 0) := by
  simp only [unorderedLeafBuilder_done]
  refine ⟨isZSet_consolidate_slice vals, fun k => wsum_consolidate_slice vals k, fun k => ?_⟩
  rw [mem_key_iff_wsum (isZSet_consolidate_slice vals) k,
    wsum_consolidate_slice vals k]

end ClaimC4

section ClaimC5

variable {K : Type} [LinearOrder K]

/-- C5: For every two ordered leaves that satisfy the batch ordering and
zero-elision invariants, `push_merge` returns the pointwise weight-sum of the
two inputs with zero-weight entries removed (the result again satisfies the
invariants); in particular merging a batch with itself doubles every weight,
and a merge whose weights all cancel (here: a batch merged with its negation)
produces an empty batch. -/
theorem push_merge_pointwise_sum (x y : ZList K) (hx : IsZSet x) (hy : IsZSet y) :
    (∀ k, wsum (push_merge x y) k = wsum x k + wsum y k) ∧
      IsZSet (push_merge x y) ∧
      (∀ k, wsum (push_merge x x) k = 2 * wsum x k) ∧
      push_merge x (zneg x) = [] := by
  refine ⟨fun k => wsum_push_merge x y k, isZSet_push_merge hx hy, fun k => ?_, ?_⟩
  · rw [wsum_push_merge]; ring
  · refine zlist_ext (isZSet_push_merge hx (isZSet_zneg hx)) isZSet_nil (fun k => ?_)
    rw [wsum_push_merge, wsum_zneg, wsum_nil]
    ring

/-- Witness for C5 at a concrete pair of batches. -/
theorem push_merge_pointwise_sum_witness :
    IsZSet [((1 : Int), (2 : Int)), (3, -1)] ∧ IsZSet [((1 : Int), (-2 : Int)), (2, 5)] ∧
      ((∀ k, wsum (push_merge [((1 : Int), (2 : Int)), (3, -1)] [(1, -2), (2, 5)]) k =
          wsum [((1 : Int), (2 : Int)), (3, -1)] k + wsum [((1 : Int), (-2 : Int)), (2, 5)] k) ∧
        IsZSet (push_merge [((1 : Int), (2 : Int)), (3, -1)] [(1, -2), (2, 5)]) ∧
        (∀ k, wsum (push_merge [((1 : Int), (2 : Int)), (3, -1)] [(1, 2), (3, -1)]) k =
          2 * wsum [((1 : Int), (2 : Int)), (3, -1)] k) ∧
        push_merge [((1 : Int), (2 : Int)), (3, -1)] (zneg [(1, 2), (3, -1)]) = []) :=
  ⟨by decide, by decide,
    push_merge_pointwise_sum [(1, 2), (3, -1)] [(1, -2), (2, 5)] (by decide) (by decide)⟩

end ClaimC5

section Distinct

variable {K : Type} [LinearOrder K]

/-- `OrdZSet::distinct` (`src/src/algebra/zset/mod.rs`, lines 44–57): walk the
cursor over the batch; for every entry whose weight satisfies `ge0`
(i.e. `0 ≤ w`) push `(key, 1)` into the tuple builder; `done()` consolidates.
On a valid batch no weight is zero, so the `ge0` test selects the strictly
positive entries. -/
def distinct (l : ZList K) : ZList K :=
  unorderedLeafBuilder_done
    (l.filterMap (fun p => if 0 ≤ p.2 then some (p.1, (1 : Int)) else none))

omit [LinearOrder K] in
theorem distinct_pushed_keys {l : ZList K} {p : K × Int}
    (hp : p ∈ l.filterMap (fun p => if 0 ≤ p.2 then some (p.1, (1 : Int)) else none)) :
    ∃ q ∈ l, q.1 = p.1 := by
  rcases List.mem_filterMap.mp hp with ⟨q, hq, hmap⟩
  by_cases h : 0 ≤ q.2
  · rw [if_pos h, Option.some_inj] at hmap
    exact ⟨q, hq, by rw [← hmap]⟩
  · rw [if_neg h] at hmap
    exact absurd hmap (Option.noConfusion)

theorem wsum_distinct_pushed {l : ZList K} (hl : IsZSet l) (k : K) :
    wsum (l.filterMap (fun p => if 0 ≤ p.2 then some (p.1, (1 : Int)) else none)) k =
      if 0 < wsum l k then 1 else 0 := by
  induction l with
  | nil => simp [wsum_nil]
  | cons p t ih =>
    rcases isZSet_cons_iff.mp hl with ⟨hb, hw, ht⟩
    rw [List.filterMap_cons, wsum_cons]
    by_cases hk : p.1 = k
    · subst hk
      rw [if_pos rfl, wsum_eq_zero_of_lt hb, add_zero]
      have htail : wsum (t.filterMap
          (fun p => if 0 ≤ p.2 then some (p.1, (1 : Int)) else none)) p.1 = 0 := by
        refine wsum_eq_zero_of_not_mem (fun q hq => ?_)
        rcases distinct_pushed_keys hq with ⟨r, hr, hrk⟩
        exact hrk ▸ (ne_of_gt (hb r hr))
      by_cases hpos : 0 ≤ p.2
      · rw [if_pos hpos, wsum_cons, if_pos rfl, htail,
          if_pos (lt_of_le_of_ne hpos (Ne.symm hw))]
        simp
      · rw [if_neg hpos, htail, if_neg (by omega)]
    · by_cases hpos : 0 ≤ p.2
      · rw [if_pos hpos, wsum_cons, if_neg hk, if_neg hk, zero_add, zero_add, ih ht]
      · rw [if_neg hpos, if_neg hk, zero_add, ih ht]

/-- C8: For every Z-set `x` (valid batch), `distinct(x)` contains exactly the
keys of `x` that have positive weight, each with weight one; keys with
non-positive weight are dropped. -/
theorem distinct_positive_support (x : ZList K) (hx : IsZSet x) :
    IsZSet (distinct x) ∧ ∀ k, wsum (distinct x) k = if 0 < wsum x k then 1 else 0 := by
  constructor
  · exact isZSet_consolidate_slice _
  · intro k
    rw [distinct, unorderedLeafBuilder_done, wsum_consolidate_slice,
      wsum_distinct_pushed hx]

/-- Witness for C8 at a concrete batch with positive and negative weights. -/
theorem distinct_positive_support_witness :
    IsZSet [((1 : Int), (3 : Int)), (2, -1), (4, 1)] ∧
      (IsZSet (distinct [((1 : Int), (3 : Int)), (2, -1), (4, 1)]) ∧
        ∀ k, wsum (distinct [((1 : Int), (3 : Int)), (2, -1), (4, 1)]) k =
          if 0 < wsum [((1 : Int), (3 : Int)), (2, -1), (4, 1)] k then 1 else 0) :=
  ⟨by decide, distinct_positive_support [(1, 3), (2, -1), (4, 1)] (by decide)⟩

end Distinct


section DistinctIncremental

variable {K : Type} [LinearOrder K]

/-- The cursor `seek` of `DistinctIncremental::eval`
(`src/src/operator/distinct.rs` line 156): the integral cursor advances past
every entry whose key is below the sought delta key; the cursor's `seek`
compares only the key component (`src/layers/ordered_leaf.rs` line 336).
The cursor state is modelled by the remaining suffix of the integral. -/
def seekTo (intg : ZList K) (v : K) : ZList K :=
  intg.dropWhile (fun p => decide (p.1 < v))

/-- `old_weight` of `DistinctIncremental::eval` (lines 157–163): the weight at
the integral cursor if it is valid and its key equals the sought key, else
zero. -/
def probeWeight (intg' : ZList K) (v : K) : Int :=
  match intg' with
  | [] => 0
  | (k', w') :: _ => if k' = v then w' else 0

/-- The tuples pushed for one delta entry (lines 165–175): `+1` when the old
weight is `le0` and the new weight is `ge0` and non-zero, `-1` when the old
weight is positive and the new weight is `le0`, nothing otherwise. -/
def emitEntry (v : K) (oldW w : Int) : ZList K :=
  if oldW ≤ 0 then
    (if 0 ≤ oldW + w ∧ oldW + w ≠ 0 then [(v, (1 : Int))] else [])
  else if oldW + w ≤ 0 then [(v, (-1 : Int))] else []

/-- The main loop of `DistinctIncremental::eval` (lines 153–177): walk the
delta entries in order, seek the integral cursor (whose position persists
across iterations), and push the emitted tuples. -/
def distinctIncLoop : ZList K → ZList K → ZList K
  | [], _ => []
  | (v, w) :: rest, intg =>
    emitEntry v (probeWeight (seekTo intg v) v) w ++
      distinctIncLoop rest (seekTo intg v)

/-- `DistinctIncremental::eval` (`src/src/operator/distinct.rs`, lines
148–180): run the loop over the delta, then `builder.done()`. -/
def distinctIncremental_eval (delta delayed_integral : ZList K) : ZList K :=
  unorderedLeafBuilder_done (distinctIncLoop delta delayed_integral)

/-- The weight the cursor probe reads equals the integral's weight at the
sought key, on a sorted integral. -/
theorem probeWeight_seekTo (intg : ZList K) (v : K) (hs : StrictKeys intg) :
    probeWeight (seekTo intg v) v = wsum intg v := by
  induction intg with
  | nil => rfl
  | cons p t ih =>
    obtain ⟨k₀, w₀⟩ := p
    rw [StrictKeys, List.pairwise_cons] at hs
    by_cases h : k₀ < v
    · rw [seekTo, List.dropWhile_cons_of_pos (by simpa using h), wsum_cons,
        if_neg (ne_of_lt h), zero_add, ← seekTo]
      exact ih hs.2
    · rw [seekTo, List.dropWhile_cons_of_neg (by simpa using h), wsum_cons]
      by_cases hk : k₀ = v
      · subst hk
        rw [probeWeight, if_pos rfl,
          wsum_eq_zero_of_lt (fun q hq => hs.1 q hq), add_zero]
      · have hvlt : v < k₀ := lt_of_le_of_ne (not_lt.mp h) (fun hh => hk hh.symm)
        rw [probeWeight, if_neg hk, zero_add,
          wsum_eq_zero_of_lt (fun q hq => lt_trans hvlt (hs.1 q hq))]

/-- Advancing the integral cursor past keys below `v` does not change the
weight of any key `≥ v`, on a sorted integral. -/
theorem wsum_seekTo_ge (intg : ZList K) {v k : K} (hvk : v ≤ k)
    (hs : StrictKeys intg) :
    wsum (seekTo intg v) k = wsum intg k := by
  induction intg with
  | nil => rfl
  | cons p t ih =>
    obtain ⟨k₀, w₀⟩ := p
    rw [StrictKeys, List.pairwise_cons] at hs
    by_cases h : k₀ < v
    · rw [seekTo, List.dropWhile_cons_of_pos (by simpa using h), wsum_cons,
        if_neg (ne_of_lt (lt_of_lt_of_le h hvk)), zero_add, ← seekTo]
      exact ih hs.2
    · rw [seekTo, List.dropWhile_cons_of_neg (by simpa using h)]

theorem strictKeys_seekTo {intg : ZList K} (hs : StrictKeys intg) (v : K) :
    StrictKeys (seekTo intg v) :=
  List.Pairwise.sublist (List.dropWhile_sublist _) hs

omit [LinearOrder K] in
/-- Every tuple emitted for one delta entry carries that entry's key. -/
theorem emitEntry_keys {v : K} {oldW w : Int} {p : K × Int}
    (hp : p ∈ emitEntry v oldW w) : p.1 = v := by
  rw [emitEntry] at hp
  split_ifs at hp
  · rw [List.mem_singleton] at hp; exact congrArg Prod.fst hp
  · exact absurd hp (List.not_mem_nil p)
  · rw [List.mem_singleton] at hp; exact congrArg Prod.fst hp
  · exact absurd hp (List.not_mem_nil p)

/-- The weight the emitted tuples assign to the entry's own key, written as
the old/new weight decision rule. -/
theorem wsum_emitEntry_self (v : K) (oldW w : Int) :
    wsum (emitEntry v oldW w) v =
      if oldW ≤ 0 ∧ 0 < oldW + w then 1
      else if 0 < oldW ∧ oldW + w ≤ 0 then -1
      else 0 := by
  rw [emitEntry]
  by_cases h₁ : oldW ≤ 0
  · rw [if_pos h₁]
    by_cases h₂ : 0 ≤ oldW + w ∧ oldW + w ≠ 0
    · rw [if_pos h₂, wsum_cons, if_pos rfl, wsum_nil, if_pos ⟨h₁, by omega⟩]
      omega
    · rw [if_neg h₂, wsum_nil, if_neg (by omega), if_neg (by omega)]
  · rw [if_neg h₁]
    by_cases h₃ : oldW + w ≤ 0
    · rw [if_pos h₃, wsum_cons, if_pos rfl, wsum_nil, if_neg (by omega),
        if_pos ⟨by omega, h₃⟩]
      omega
    · rw [if_neg h₃, wsum_nil, if_neg (by omega), if_neg (by omega)]

theorem wsum_emitEntry_other {v k : K} (hk : v ≠ k) (oldW w : Int) :
    wsum (emitEntry v oldW w) k = 0 :=
  wsum_eq_zero_of_not_mem (fun _p hp => (emitEntry_keys hp).symm ▸ hk)

/-- Every key emitted by the loop is a key of the delta. -/
theorem distinctIncLoop_keys {d intg : ZList K} {p : K × Int}
    (hp : p ∈ distinctIncLoop d intg) : ∃ q ∈ d, q.1 = p.1 := by
  induction d generalizing intg with
  | nil =>
    rw [distinctIncLoop] at hp
    exact absurd hp (List.not_mem_nil p)
  | cons q rest ih =>
    obtain ⟨v, w⟩ := q
    rw [distinctIncLoop, List.mem_append] at hp
    rcases hp with hp | hp
    · exact ⟨(v, w), List.mem_cons_self _ _, (emitEntry_keys hp).symm⟩
    · rcases ih hp with ⟨r, hr, hrk⟩
      exact ⟨r, List.mem_cons_of_mem _ hr, hrk⟩

/-- Pointwise characterization of the eval loop. -/
theorem distinctIncLoop_wsum (d : ZList K) (intg : ZList K) (hd : IsZSet d)
    (hi : StrictKeys intg) (k : K) :
    wsum (distinctIncLoop d intg) k =
      if wsum d k = 0 then 0
      else if wsum intg k ≤ 0 ∧ 0 < wsum intg k + wsum d k then 1
      else if 0 < wsum intg k ∧ wsum intg k + wsum d k ≤ 0 then -1
      else 0 := by
  induction d generalizing intg with
  | nil => simp [distinctIncLoop, wsum_nil]
  | cons q rest ih =>
    obtain ⟨v, w⟩ := q
    rcases isZSet_cons_iff.mp hd with ⟨hb, hw, ht⟩
    rw [distinctIncLoop, wsum_append]
    by_cases hk : v = k
    · subst hk
      have htail : wsum (distinctIncLoop rest (seekTo intg v)) v = 0 := by
        refine wsum_eq_zero_of_not_mem (fun q hq => ?_)
        rcases distinctIncLoop_keys hq with ⟨r, hr, hrk⟩
        exact hrk ▸ ne_of_gt (hb r hr)
      rw [htail, add_zero, wsum_cons, if_pos rfl, wsum_eq_zero_of_lt hb, add_zero,
        wsum_emitEntry_self, probeWeight_seekTo intg v hi, if_neg hw]
    · have hrest : wsum (distinctIncLoop rest (seekTo intg v)) k =
          if wsum rest k = 0 then 0
          else if wsum (seekTo intg v) k ≤ 0 ∧
              0 < wsum (seekTo intg v) k + wsum rest k then 1
          else if 0 < wsum (seekTo intg v) k ∧
              wsum (seekTo intg v) k + wsum rest k ≤ 0 then -1
          else 0 :=
        ih (seekTo intg v) ht (strictKeys_seekTo hi v)
      rw [wsum_emitEntry_other hk, zero_add, hrest, wsum_cons, if_neg hk, zero_add]
      by_cases hz : wsum rest k = 0
      · rw [if_pos hz, if_pos hz]
      · have hkmem : ∃ p ∈ rest, p.1 = k := (mem_key_iff_wsum ht k).mpr hz
        have hvk : v ≤ k := by
          rcases hkmem with ⟨p, hp, hpk⟩
          exact le_of_lt (hpk ▸ hb p hp)
        rw [wsum_seekTo_ge intg hvk hi]

/-- C3: For every delta Z-set `a` and delayed integral Z-set `I` given to the
incremental distinct operator (both valid batches), and for each key `k`:
writing `w_old` for the weight of `k` in `I` (zero if absent) and
`w_new = w_old + Δw` where `Δw` is the delta weight, the operator emits
`(k, +1)` if `w_old ≤ 0` and `w_new > 0`, emits `(k, -1)` if `w_old > 0` and
`w_new ≤ 0`, and emits nothing for `k` otherwise; keys not touched by `a`
(delta weight zero) produce no output. -/
theorem distinct_incremental_eval_emits (a I : ZList K) (ha : IsZSet a)
    (hI : IsZSet I) (k : K) :
    wsum (distinctIncremental_eval a I) k =
      if wsum a k = 0 then 0
      else if wsum I k ≤ 0 ∧ 0 < wsum I k + wsum a k then 1
      else if 0 < wsum I k ∧ wsum I k + wsum a k ≤ 0 then -1
      else 0 := by
  rw [distinctIncremental_eval, unorderedLeafBuilder_done, wsum_consolidate_slice]
  exact distinctIncLoop_wsum a I ha hI.1 k

/-- Witness for C3: third step of scenario S1 (`I = {1:+1, 3:+2}`,
`a = {1:-1, 3:-2}`). -/
theorem distinct_incremental_eval_emits_witness :
    IsZSet [((1 : Int), (-1 : Int)), (3, -2)] ∧ IsZSet [((1 : Int), (1 : Int)), (3, 2)] ∧
      ∀ k, wsum (distinctIncremental_eval [((1 : Int), (-1 : Int)), (3, -2)]
          [(1, 1), (3, 2)]) k =
        if wsum [((1 : Int), (-1 : Int)), (3, -2)] k = 0 then 0
        else if wsum [((1 : Int), (1 : Int)), (3, 2)] k ≤ 0 ∧
            0 < wsum [((1 : Int), (1 : Int)), (3, 2)] k +
              wsum [((1 : Int), (-1 : Int)), (3, -2)] k then 1
        else if 0 < wsum [((1 : Int), (1 : Int)), (3, 2)] k ∧
            wsum [((1 : Int), (1 : Int)), (3, 2)] k +
              wsum [((1 : Int), (-1 : Int)), (3, -2)] k ≤ 0 then -1
        else 0 :=
  ⟨by decide, by decide,
    distinct_incremental_eval_emits [(1, -1), (3, -2)] [(1, 1), (3, 2)]
      (by decide) (by decide)⟩

end DistinctIncremental

section Streams

variable {K : Type} [LinearOrder K]

/-- Modelled from the spec: the `delay` operator `z⁻¹` (its source file,
`src/operator/z1.rs`, is absent from the corpus): a strict unary operator that
"emits the value previously written, starting with the zero of the stream's
value type at step 0" (spec §4.5.1). -/
def delayS (s : Nat → ZList K) : Nat → ZList K
  | 0 => []
  | t + 1 => s t

/-- Modelled from the spec: `integrate` (its source file,
`src/operator/integrate.rs`, is absent from the corpus): "equivalent to
`x + delay(self)` at every step, i.e. cumulative sum of all deltas seen so
far" (spec §4.5.1).  Z-set addition is the in-corpus leaf merge
`push_merge`. -/
def integrateS (s : Nat → ZList K) : Nat → ZList K
  | 0 => push_merge (s 0) []
  | t + 1 => push_merge (s (t + 1)) (integrateS s t)

/-- Modelled from the spec: `differentiate` is `x - delay(x)` (spec §4.5.1);
subtraction adds the negation. -/
def differentiateS (s : Nat → ZList K) (t : Nat) : ZList K :=
  push_merge (s t) (zneg (delayS s t))

/-- `distinct_incremental` (`src/src/operator/distinct.rs`, lines 42–56): the
binary `DistinctIncremental` operator applied to the input stream and its
delayed integral `self.integrate().delay()`. -/
def distinct_incremental (a : Nat → ZList K) (t : Nat) : ZList K :=
  distinctIncremental_eval (a t) (delayS (integrateS a) t)

/-- The non-incremental reference pipeline
`differentiate(distinct(integrate(a)))`. -/
def distinct_noninc (a : Nat → ZList K) (t : Nat) : ZList K :=
  differentiateS (fun u => distinct (integrateS a u)) t

theorem isZSet_integrateS {a : Nat → ZList K} (ha : ∀ u, IsZSet (a u)) :
    ∀ t, IsZSet (integrateS a t)
  | 0 => by rw [integrateS, push_merge_nil_right]; exact ha 0
  | t + 1 => isZSet_push_merge (ha (t + 1)) (isZSet_integrateS ha t)

theorem isZSet_delayS {s : Nat → ZList K} (hs : ∀ u, IsZSet (s u)) :
    ∀ t, IsZSet (delayS s t)
  | 0 => isZSet_nil
  | t + 1 => hs t

theorem wsum_integrateS_succ (a : Nat → ZList K) (t : Nat) (k : K) :
    wsum (integrateS a (t + 1)) k = wsum (a (t + 1)) k + wsum (integrateS a t) k := by
  rw [integrateS, wsum_push_merge]

theorem wsum_integrateS_zero (a : Nat → ZList K) (k : K) :
    wsum (integrateS a 0) k = wsum (a 0) k := by
  rw [integrateS, push_merge_nil_right]

/-- Scenario S1's input deltas, as a stream that is empty from step 3 on. -/
def streamS1 : Nat → ZList Int
  | 0 => [(1, 1), (2, 1)]
  | 1 => [(2, -1), (3, 2)]
  | 2 => [(1, -1), (3, -2)]
  | _ + 3 => []

theorem streamS1_valid : ∀ u, IsZSet (streamS1 u)
  | 0 => by decide
  | 1 => by decide
  | 2 => by decide
  | _ + 3 => isZSet_nil

end Streams

section ClaimC1

variable {K : Type} [LinearOrder K]

/-- C1: For every input stream `a` of (valid) Z-sets, the output of
`distinct_incremental(a)` at every step equals the output of
`differentiate(distinct(integrate(a)))` at that step. -/
theorem distinct_incremental_equiv (a : Nat → ZList K)
    (ha : ∀ u, IsZSet (a u)) (t : Nat) :
    distinct_incremental a t = distinct_noninc a t := by
  have hI : IsZSet (delayS (integrateS a) t) :=
    isZSet_delayS (isZSet_integrateS ha) t
  refine zlist_ext ?_ ?_ (fun k => ?_)
  · rw [distinct_incremental, distinctIncremental_eval, unorderedLeafBuilder_done]
    exact isZSet_consolidate_slice _
  · rw [distinct_noninc, differentiateS]
    refine isZSet_push_merge
      (distinct_positive_support _ (isZSet_integrateS ha t)).1
      (isZSet_zneg (isZSet_delayS (fun u => ?_) t))
    exact (distinct_positive_support _ (isZSet_integrateS ha u)).1
  · rw [distinct_incremental,
      distinct_incremental_eval_emits (a t) _ (ha t) hI k,
      distinct_noninc, differentiateS, wsum_push_merge, wsum_zneg,
      (distinct_positive_support _ (isZSet_integrateS ha t)).2 k]
    cases t with
    | zero =>
      rw [delayS, delayS, wsum_nil, wsum_integrateS_zero]
      split_ifs <;> omega
    | succ t =>
      rw [delayS, delayS,
        (distinct_positive_support _ (isZSet_integrateS ha t)).2 k,
        wsum_integrateS_succ]
      split_ifs <;> omega

/-- Witness for C1: scenario S1, input deltas
`[{1:+1, 2:+1}, {2:-1, 3:+2}, {3:-2, 1:-1}]` (empty afterwards), checked at
step 2. -/
theorem distinct_incremental_equiv_witness :
    (∀ u, IsZSet (streamS1 u)) ∧ distinct_incremental streamS1 2 = distinct_noninc streamS1 2 :=
  ⟨streamS1_valid, distinct_incremental_equiv streamS1 streamS1_valid 2⟩

end ClaimC1

section CheckedIntM

/-- Smallest value of a `w`-bit signed integer type. -/
def intMin (w : Nat) : Int := -(2 ^ (w - 1))

/-- Largest value of a `w`-bit signed integer type. -/
def intMax (w : Nat) : Int := 2 ^ (w - 1) - 1

/-- `x` is representable in the `w`-bit signed integer type. -/
def Representable (w : Nat) (x : Int) : Prop :=
  intMin w ≤ x ∧ x ≤ intMax w

instance (w : Nat) (x : Int) : Decidable (Representable w x) :=
  inferInstanceAs (Decidable (_ ∧ _))

/-- Rust's `checked_add` on a `w`-bit signed integer: the exact sum when
representable, `None` on overflow. -/
def checked_add (w : Nat) (a b : Int) : Option Int :=
  if Representable w (a + b) then some (a + b) else none

/-- Rust's `checked_mul` on a `w`-bit signed integer. -/
def checked_mul (w : Nat) (a b : Int) : Option Int :=
  if Representable w (a * b) then some (a * b) else none

/-- Rust's `checked_neg` on a `w`-bit signed integer (fails exactly at the
minimum value, whose negation is not representable). -/
def checked_neg (w : Nat) (a : Int) : Option Int :=
  if Representable w (-a) then some (-a) else none

/-- `CheckedInt::add` (`src/src/algebra/checked_int.rs`, lines 27–51):
`checked_add(...).expect("overflow")`; the panic is modelled as an `Except`
error carrying the panic message. -/
def checkedInt_add (w : Nat) (a b : Int) : Except String Int :=
  match checked_add w a b with
  | some v => Except.ok v
  | none => Except.error "overflow"

/-- `CheckedInt::mul_by_ref` (lines 71–83): `checked_mul(...).expect("overflow")`. -/
def checkedInt_mul (w : Nat) (a b : Int) : Except String Int :=
  match checked_mul w a b with
  | some v => Except.ok v
  | none => Except.error "overflow"

/-- `CheckedInt::neg` (lines 97–109): `checked_neg(...).expect("overflow")`. -/
def checkedInt_neg (w : Nat) (a : Int) : Except String Int :=
  match checked_neg w a with
  | some v => Except.ok v
  | none => Except.error "overflow"

/-- C9: `CheckedInt` arithmetic (add, mul, neg) returns the exact mathematical
integer result whenever that result is representable in the underlying
`w`-bit signed integer type, and fails with an "overflow" arithmetic error
otherwise; in particular `CheckedInt<i64>` of `i64::MAX` plus `CheckedInt<i64>`
of `1` fails with arithmetic overflow. -/
theorem checkedInt_exact_or_overflow (w : Nat) (a b : Int) :
    (Representable w (a + b) → checkedInt_add w a b = Except.ok (a + b)) ∧
      (¬Representable w (a + b) → checkedInt_add w a b = Except.error "overflow") ∧
      (Representable w (a * b) → checkedInt_mul w a b = Except.ok (a * b)) ∧
      (¬Representable w (a * b) → checkedInt_mul w a b = Except.error "overflow") ∧
      (Representable w (-a) → checkedInt_neg w a = Except.ok (-a)) ∧
      (¬Representable w (-a) → checkedInt_neg w a = Except.error "overflow") ∧
      checkedInt_add 64 (intMax 64) 1 = Except.error "overflow" := by
  refine ⟨fun h => ?_, fun h => ?_, fun h => ?_, fun h => ?_, fun h => ?_, fun h => ?_, ?_⟩
  · rw [checkedInt_add, checked_add, if_pos h]
  · rw [checkedInt_add, checked_add, if_neg h]
  · rw [checkedInt_mul, checked_mul, if_pos h]
  · rw [checkedInt_mul, checked_mul, if_neg h]
  · rw [checkedInt_neg, checked_neg, if_pos h]
  · rw [checkedInt_neg, checked_neg, if_neg h]
  · rw [checkedInt_add, checked_add, if_neg (by decide)]

/-- Witness for C9 at 8 bits: `1 + 2` is exact, `100 + 100` overflows. -/
theorem checkedInt_exact_or_overflow_witness :
    (Representable 8 ((1 : Int) + 2) ∧ checkedInt_add 8 1 2 = Except.ok (1 + 2)) ∧
      (¬Representable 8 ((100 : Int) + 100) ∧
        checkedInt_add 8 100 100 = Except.error "overflow") :=
  ⟨⟨by decide, (checkedInt_exact_or_overflow 8 1 2).1 (by decide)⟩,
    ⟨by decide, (checkedInt_exact_or_overflow 8 100 100).2.1 (by decide)⟩⟩

end CheckedIntM

section Scheduler

/-- Observable lifecycle events of `IterativeExecutor::run`
(`src/src/circuit/schedule/mod.rs`, lines 88–102): the `clock_start`
notification, one scheduler `step` per loop iteration, and the `clock_end`
notification. -/
inductive SchedulerEvent where
  | clock_start : SchedulerEvent
  | step : SchedulerEvent
  | clock_end : SchedulerEvent
deriving DecidableEq

/-- The `loop { step; if termination_check() { break } }` body of
`IterativeExecutor::run`: the termination closure is modelled as a predicate
on the number of completed inner steps (its call count), and `fuel` bounds
the number of iterations so the definition is total (the source loop runs
until the check first returns true). -/
def runLoop (term : Nat → Bool) : Nat → Nat → List SchedulerEvent
  | 0, _ => []
  | fuel + 1, done =>
    SchedulerEvent.step ::
      (if term (done + 1) then [] else runLoop term fuel (done + 1))

/-- `IterativeExecutor::run` (lines 88–102): `clock_start`, then the
evaluation loop, then `clock_end`. -/
def iterativeExecutor_run (term : Nat → Bool) (fuel : Nat) : List SchedulerEvent :=
  SchedulerEvent.clock_start :: (runLoop term fuel 0 ++ [SchedulerEvent.clock_end])

/-- C10: Every invocation of `IterativeExecutor::run` evaluates the circuit
body at least once before consulting the termination check; when the
termination predicate already holds at entry (it returns true at its first
consultation), exactly one inner step is executed between `clock_start` and
`clock_end`. -/
theorem iterative_executor_steps_once (term : Nat → Bool) (fuel : Nat)
    (hfuel : 0 < fuel) :
    1 ≤ (iterativeExecutor_run term fuel).count SchedulerEvent.step ∧
      (term 1 = true →
        iterativeExecutor_run term fuel =
          [SchedulerEvent.clock_start, SchedulerEvent.step,
            SchedulerEvent.clock_end]) := by
  obtain ⟨f, rfl⟩ : ∃ f, fuel = f + 1 :=
    ⟨fuel - 1, (Nat.succ_pred_eq_of_pos hfuel).symm⟩
  constructor
  · rw [iterativeExecutor_run, runLoop]
    simp [List.count_cons, List.count_append]
  · intro hterm
    rw [iterativeExecutor_run, runLoop, hterm]
    simp

/-- Witness for C10: a termination check that holds immediately, one unit of
fuel. -/
theorem iterative_executor_steps_once_witness :
    0 < 1 ∧
      (1 ≤ (iterativeExecutor_run (fun _ => true) 1).count SchedulerEvent.step ∧
        ((fun _ => true : Nat → Bool) 1 = true →
          iterativeExecutor_run (fun _ => true) 1 =
            [SchedulerEvent.clock_start, SchedulerEvent.step,
              SchedulerEvent.clock_end])) :=
  ⟨by decide, iterative_executor_steps_once (fun _ => true) 1 (by decide)⟩

end Scheduler

section Exchange

variable {T : Type}

/-- The `n²` mailbox slots of `Exchange`
(`src/src/operator/communication/exchange.rs`): slot `(sender, receiver)`
(flat index `sender * n + receiver`, `slot_index` lines 132–141) is `none`
when its validity flag is false (empty) and `some v` when the flag is true
and the cell holds `v`. -/
def Mat (T : Type) := Nat → Nat → Option T

/-- All slots start invalid (`Exchange::new`, lines 86–88). -/
def emptyMat (T : Type) : Mat T := fun _ _ => none

/-- `Exchange::ready_to_send` (lines 143–148): all of the sender's outgoing
slots are empty. -/
def ready_to_send (n : Nat) (m : Mat T) (sender : Nat) : Bool :=
  (List.range n).all (fun receiver => (m sender receiver).isNone)

/-- `Exchange::ready_to_receive` (lines 150–155): all of the receiver's
incoming slots are full. -/
def ready_to_receive (n : Nat) (m : Mat T) (receiver : Nat) : Bool :=
  (List.range n).all (fun sender => (m sender receiver).isSome)

/-- `Exchange::try_send` (lines 221–235): fail without touching anything
unless `ready_to_send`; otherwise `push` the next iterator element into slot
`(sender, r)` for `r = 0, …, n-1` in order, consuming exactly `n` elements.
The loop's sequence of single-slot `push`es amounts to the functional update
below; `data.next().unwrap()` panics when the iterator is exhausted, so the
model is faithful for iterators yielding at least `n` values (`data.get? r`
is `some` for every written slot exactly then). -/
def try_send (n : Nat) (m : Mat T) (sender : Nat) (data : List T) :
    Bool × Mat T × List T :=
  if ready_to_send n m sender then
    (true, fun s r => if s = sender ∧ r < n then data.get? r else m s r,
      data.drop n)
  else (false, m, data)

/-- `Exchange::try_receive` (lines 259–273): fail unless `ready_to_receive`;
otherwise `pop` slot `(s, receiver)` for `s = 0, …, n-1` in order, invoking
the callback on each popped value and clearing the slot.  The third component
collects the callback arguments in invocation order (`pop` reads an
initialized value exactly when the slot is valid, which readiness
guarantees). -/
def try_receive (n : Nat) (m : Mat T) (receiver : Nat) :
    Bool × Mat T × List T :=
  if ready_to_receive n m receiver then
    (true, fun s r => if r = receiver ∧ s < n then none else m s r,
      (List.range n).filterMap (fun s => m s receiver))
  else (false, m, [])

theorem ready_to_send_iff (n : Nat) (m : Mat T) (sender : Nat) :
    ready_to_send n m sender = true ↔ ∀ r < n, m sender r = none := by
  rw [ready_to_send, List.all_eq_true]
  constructor
  · intro h r hr
    have := h r (List.mem_range.mpr hr)
    rwa [Option.isNone_iff_eq_none] at this
  · intro h r hr
    rw [Option.isNone_iff_eq_none]
    exact h r (List.mem_range.mp hr)

/-- C7: `try_send(sender, data)` succeeds (returns true and fills each of the
sender's `n` outgoing slots with one value) iff all `n` of the sender's
outgoing slots are empty at the call; when it fails it returns false,
modifies no slot, and consumes no item from the data iterator. -/
theorem try_send_all_or_nothing (n : Nat) (m : Mat T) (sender : Nat)
    (data : List T) :
    ((try_send n m sender data).1 = true ↔ ∀ r < n, m sender r = none) ∧
      (¬(∀ r < n, m sender r = none) →
        (try_send n m sender data).1 = false ∧
          (try_send n m sender data).2.1 = m ∧
          (try_send n m sender data).2.2 = data) ∧
      ((∀ r < n, m sender r = none) → n ≤ data.length →
        ∀ r < n, (try_send n m sender data).2.1 sender r = data.get? r ∧
          ((try_send n m sender data).2.1 sender r).isSome = true) := by
  by_cases h : ready_to_send n m sender = true
  · rw [try_send, if_pos h]
    refine ⟨by simpa using (ready_to_send_iff n m sender).mp h, ?_, ?_⟩
    · intro hcon
      exact absurd ((ready_to_send_iff n m sender).mp h) hcon
    · intro _ hlen r hr
      constructor
      · show (if sender = sender ∧ r < n then data.get? r else m sender r) = data.get? r
        exact if_pos ⟨rfl, hr⟩
      · show (if sender = sender ∧ r < n then data.get? r else m sender r).isSome = true
        rw [if_pos ⟨rfl, hr⟩, List.get?_eq_get (lt_of_lt_of_le hr hlen)]
        rfl
  · rw [try_send, if_neg h]
    refine ⟨?_, fun _ => ⟨rfl, rfl, rfl⟩, ?_⟩
    · constructor
      · intro hh
        exact absurd hh Bool.false_ne_true
      · intro hall
        exact absurd ((ready_to_send_iff n m sender).mpr hall) h
    · intro hall
      exact absurd ((ready_to_send_iff n m sender).mpr hall) h

/-- Witness for C7: with two workers and sender 0's slot `(0, 0)` full,
`try_send` fails and leaves the state and iterator alone; on the empty matrix
it succeeds and fills both outgoing slots. -/
theorem try_send_all_or_nothing_witness :
    (¬(∀ r < 2, (fun s r => if s = 0 ∧ r = 0 then some 42 else none : Mat Nat) 0 r = none) ∧
      (try_send 2 (fun s r => if s = 0 ∧ r = 0 then some 42 else none) 0 [1, 2]).1 = false ∧
      (try_send 2 (fun s r => if s = 0 ∧ r = 0 then some 42 else none) 0 [1, 2]).2.2 = [1, 2]) ∧
      ((∀ r < 2, emptyMat Nat 0 r = none) ∧
        ∀ r < 2, (try_send 2 (emptyMat Nat) 0 [1, 2]).2.1 0 r = [1, 2].get? r) := by
  have hfull : ¬(∀ r < 2,
      (fun s r => if s = 0 ∧ r = 0 then some 42 else none : Mat Nat) 0 r = none) := by
    intro hall
    have := hall 0 (by omega)
    simp at this
  have hempty : ∀ r < 2, emptyMat Nat 0 r = none := fun _ _ => rfl
  have h₁ := (try_send_all_or_nothing 2
    (fun s r => if s = 0 ∧ r = 0 then some 42 else none) 0 [1, 2]).2.1 hfull
  have h₂ := (try_send_all_or_nothing 2 (emptyMat Nat) 0 [1, 2]).2.2 hempty
    (by decide)
  exact ⟨⟨hfull, h₁.1, h₁.2.2⟩, hempty, fun r hr => (h₂ r hr).1⟩

/-- One exchange round's send phase, modelled sequentially: each worker in
`senders` order calls `try_send(s, payloads s)`; the flag records whether
every call succeeded. -/
def sendSeq (n : Nat) (payloads : Nat → List T) : List Nat → Mat T → Mat T × Bool
  | [], m => (m, true)
  | s :: rest, m =>
    ((sendSeq n payloads rest (try_send n m s (payloads s)).2.1).1,
      (try_send n m s (payloads s)).1 &&
        (sendSeq n payloads rest (try_send n m s (payloads s)).2.1).2)

/-- A full send phase: workers `0, …, n-1` send into the initially empty
mailbox matrix. -/
def exchange_round (n : Nat) (payloads : Nat → List T) : Mat T × Bool :=
  sendSeq n payloads (List.range n) (emptyMat T)

theorem sendSeq_spec (n : Nat) (payloads : Nat → List T) :
    ∀ (senders : List Nat) (m : Mat T), senders.Nodup →
      (∀ s ∈ senders, ∀ r < n, m s r = none) →
      (sendSeq n payloads senders m).2 = true ∧
        ∀ s r, (sendSeq n payloads senders m).1 s r =
          if s ∈ senders ∧ r < n then (payloads s).get? r else m s r := by
  intro senders
  induction senders with
  | nil =>
    intro m _ _
    refine ⟨rfl, fun s r => ?_⟩
    rw [sendSeq, if_neg (fun h => absurd h.1 (List.not_mem_nil s))]
  | cons s₀ rest ih =>
    intro m hnodup hempty
    rw [List.nodup_cons] at hnodup
    have hready : ready_to_send n m s₀ = true :=
      (ready_to_send_iff n m s₀).mpr
        (fun r hr => hempty s₀ (List.mem_cons_self _ _) r hr)
    have htry : try_send n m s₀ (payloads s₀) =
        (true, fun s r => if s = s₀ ∧ r < n then (payloads s₀).get? r else m s r,
          (payloads s₀).drop n) := by
      rw [try_send, if_pos hready]
    have hrest : ∀ s ∈ rest, ∀ r < n,
        (if s = s₀ ∧ r < n then (payloads s₀).get? r else m s r) = none := by
      intro s hs r hr
      have hne : ¬(s = s₀ ∧ r < n) := fun hh => hnodup.1 (hh.1 ▸ hs)
      rw [if_neg hne]
      exact hempty s (List.mem_cons_of_mem _ hs) r hr
    have hih := ih (fun s r => if s = s₀ ∧ r < n then (payloads s₀).get? r else m s r)
      hnodup.2 hrest
    rw [sendSeq, htry]
    refine ⟨by rw [hih.1]; rfl, fun s r => ?_⟩
    show (sendSeq n payloads rest
        (fun s r => if s = s₀ ∧ r < n then (payloads s₀).get? r else m s r)).1 s r = _
    rw [hih.2 s r]
    show (if s ∈ rest ∧ r < n then (payloads s).get? r
        else if s = s₀ ∧ r < n then (payloads s₀).get? r else m s r) =
      if s ∈ s₀ :: rest ∧ r < n then (payloads s).get? r else m s r
    by_cases hr : r < n
    · by_cases hmem : s ∈ rest
      · rw [if_pos ⟨hmem, hr⟩, if_pos ⟨List.mem_cons_of_mem _ hmem, hr⟩]
      · have hA : ¬(s ∈ rest ∧ r < n) := fun hh => hmem hh.1
        rw [if_neg hA]
        by_cases hs₀ : s = s₀
        · have hC : s ∈ s₀ :: rest ∧ r < n :=
            ⟨by rw [hs₀]; exact List.mem_cons_self _ _, hr⟩
          rw [if_pos ⟨hs₀, hr⟩, if_pos hC, hs₀]
        · have hB : ¬(s = s₀ ∧ r < n) := fun hh => hs₀ hh.1
          have hC : ¬(s ∈ s₀ :: rest ∧ r < n) := by
            rintro ⟨hmem', _⟩
            rcases List.mem_cons.mp hmem' with h' | h'
            · exact hs₀ h'
            · exact hmem h'
          rw [if_neg hB, if_neg hC]
    · have hA : ¬(s ∈ rest ∧ r < n) := fun hh => hr hh.2
      have hB : ¬(s = s₀ ∧ r < n) := fun hh => hr hh.2
      have hC : ¬(s ∈ s₀ :: rest ∧ r < n) := fun hh => hr hh.2
      rw [if_neg hA, if_neg hB, if_neg hC]

/-- A `filterMap` whose function never fails keeps every element: lengths
agree and the `i`-th output is the image of the `i`-th input. -/
theorem filterMap_all_some {α β : Type} (f : α → Option β) :
    ∀ (l : List α), (∀ x ∈ l, (f x).isSome = true) →
      (l.filterMap f).length = l.length ∧
        ∀ i, (l.filterMap f).get? i = (l.get? i).bind f := by
  intro l
  induction l with
  | nil => exact fun _ => ⟨rfl, fun i => by cases i <;> rfl⟩
  | cons x t ih =>
    intro h
    rcases Option.isSome_iff_exists.mp (h x (List.mem_cons_self _ _)) with ⟨b, hb⟩
    have ht := ih (fun y hy => h y (List.mem_cons_of_mem _ hy))
    rw [List.filterMap_cons, hb]
    refine ⟨by rw [List.length_cons, List.length_cons, ht.1], fun i => ?_⟩
    cases i with
    | zero => rw [List.get?_cons_zero, List.get?_cons_zero]; exact hb.symm
    | succ i => rw [List.get?_cons_succ, List.get?_cons_succ, ht.2 i]

/-- C6: For `n` workers and payload vectors of length `n`, if in one round
every worker `s` calls `try_send(s, payloads s)` (in worker order) and then
every worker `r` calls `try_receive(r, cb)`, every send and receive succeeds
and the callback at worker `r` is invoked exactly `n` times with the values
`payloads 0 !! r, …, payloads (n-1) !! r`, in that sender-index order. -/
theorem exchange_round_fidelity (n : Nat) (payloads : Nat → List T)
    (hlen : ∀ s < n, (payloads s).length = n) :
    (exchange_round n payloads).2 = true ∧
      ∀ r < n,
        (try_receive n (exchange_round n payloads).1 r).1 = true ∧
          (try_receive n (exchange_round n payloads).1 r).2.2.length = n ∧
          ∀ s < n, (try_receive n (exchange_round n payloads).1 r).2.2.get? s =
            (payloads s).get? r := by
  have hspec := sendSeq_spec n payloads (List.range n) (emptyMat T)
    (List.nodup_range n) (fun _ _ _ _ => rfl)
  have hmat : ∀ s r, (exchange_round n payloads).1 s r =
      if s < n ∧ r < n then (payloads s).get? r else none := by
    intro s r
    rw [exchange_round, hspec.2 s r]
    by_cases hs : s < n
    · by_cases hr : r < n
      · rw [if_pos ⟨List.mem_range.mpr hs, hr⟩, if_pos ⟨hs, hr⟩]
      · rw [if_neg (fun hh => hr hh.2), if_neg (fun hh => hr hh.2)]; rfl
    · rw [if_neg (fun hh => hs (List.mem_range.mp hh.1)),
        if_neg (fun hh => hs hh.1)]
      rfl
  refine ⟨hspec.1, fun r hr => ?_⟩
  have hsome : ∀ s < n, ((exchange_round n payloads).1 s r).isSome = true := by
    intro s hs
    rw [hmat s r, if_pos ⟨hs, hr⟩,
      List.get?_eq_get (by rw [hlen s hs]; exact hr)]
    rfl
  have hready : ready_to_receive n (exchange_round n payloads).1 r = true := by
    rw [ready_to_receive, List.all_eq_true]
    exact fun s hs => hsome s (List.mem_range.mp hs)
  have hfm := filterMap_all_some (fun s => (exchange_round n payloads).1 s r)
    (List.range n) (fun s hs => hsome s (List.mem_range.mp hs))
  rw [try_receive, if_pos hready]
  refine ⟨rfl, ?_, fun s hs => ?_⟩
  · show ((List.range n).filterMap fun s => (exchange_round n payloads).1 s r).length = n
    rw [hfm.1, List.length_range]
  · show ((List.range n).filterMap fun s => (exchange_round n payloads).1 s r).get? s =
      (payloads s).get? r
    rw [hfm.2 s, List.get?_range hs, Option.some_bind, hmat s r, if_pos ⟨hs, hr⟩]

/-- Scenario S5's payload vectors for three workers. -/
def payloadsS5 : Nat → List Nat
  | 0 => [1, 2, 3]
  | 1 => [4, 5, 6]
  | 2 => [7, 8, 9]
  | _ + 3 => []

theorem payloadsS5_len : ∀ s < 3, (payloadsS5 s).length = 3
  | 0, _ => rfl
  | 1, _ => rfl
  | 2, _ => rfl
  | _ + 3, h => absurd h (by omega)

/-- Witness for C6: scenario S5, three workers with payloads
`[1,2,3], [4,5,6], [7,8,9]`. -/
theorem exchange_round_fidelity_witness :
    (∀ s < 3, (payloadsS5 s).length = 3) ∧
      ((exchange_round 3 payloadsS5).2 = true ∧
        ∀ r < 3,
          (try_receive 3 (exchange_round 3 payloadsS5).1 r).1 = true ∧
            (try_receive 3 (exchange_round 3 payloadsS5).1 r).2.2.length = 3 ∧
            ∀ s < 3, (try_receive 3 (exchange_round 3 payloadsS5).1 r).2.2.get? s =
              (payloadsS5 s).get? r) :=
  ⟨payloadsS5_len, exchange_round_fidelity 3 payloadsS5 payloadsS5_len⟩

end Exchange

section IndexedZSet

variable {K V : Type} [LinearOrder K] [LinearOrder V]

/-- An indexed Z-set in trie form: `OrdIndexedZSet<K, V, R>` is
`OrderedLayer<K, OrderedLeaf<V, R>>` (`src/src/algebra/zset/mod.rs` line
104); each key carries an ordered leaf of `(value, weight)` pairs. -/
abbrev IZList (K V : Type) := List (K × List (V × Int))

/-- Outer keys strictly ascending. -/
def StrictOuter (l : IZList K V) : Prop :=
  l.Pairwise (fun p q => p.1 < q.1)

/-- The indexed-batch invariant (spec §3.2/§3.3): outer keys strictly
ascending; per-key value leaves valid (values ascending, no zero weight) and
non-empty (a key with no values is elided). -/
def IsIZSet (l : IZList K V) : Prop :=
  StrictOuter l ∧ ∀ p ∈ l, IsZSet p.2 ∧ p.2 ≠ []

instance (l : IZList K V) : Decidable (StrictOuter l) :=
  inferInstanceAs (Decidable (l.Pairwise _))

instance (l : IZList K V) : Decidable (IsIZSet l) :=
  inferInstanceAs (Decidable (_ ∧ _))

/-- The weight an indexed Z-set assigns to pair `(k, v)`. -/
def wsumI (l : IZList K V) (k : K) (v : V) : Int :=
  (l.map (fun p => if p.1 = k then wsum p.2 v else 0)).sum

/-- Modelled from the spec: the merge builder of `OrderedLayer` (its source
file, `src/layers/ordered.rs`, is declared in `src/layers/mod.rs` but absent
from the corpus): it "takes two cursors over sibling batches and interleaves
them, adding weights on equal keys and dropping zero-weight results" (spec
§3.3); on equal outer keys the child leaves merge (the in-corpus
`push_merge`) and a key whose merged leaf is empty is elided (§3.2: zero
values elided). -/
def zaddI : IZList K V → IZList K V → IZList K V
  | [], l₂ => l₂
  | l₁, [] => l₁
  | (k₁, vs₁) :: r₁, (k₂, vs₂) :: r₂ =>
    if k₁ < k₂ then (k₁, vs₁) :: zaddI r₁ ((k₂, vs₂) :: r₂)
    else if k₂ < k₁ then (k₂, vs₂) :: zaddI ((k₁, vs₁) :: r₁) r₂
    else
      if push_merge vs₁ vs₂ = [] then zaddI r₁ r₂
      else (k₁, push_merge vs₁ vs₂) :: zaddI r₁ r₂

theorem zaddI_nil_left (l : IZList K V) : zaddI [] l = l := by
  cases l <;> simp [zaddI]

theorem zaddI_nil_right (l : IZList K V) : zaddI l [] = l := by
  cases l <;> simp [zaddI]

theorem zaddI_lower_bound {l₁ l₂ : IZList K V} {x : K}
    (h₁ : ∀ p ∈ l₁, x < p.1) (h₂ : ∀ p ∈ l₂, x < p.1) :
    ∀ p ∈ zaddI l₁ l₂, x < p.1 := by
  induction l₁, l₂ using zaddI.induct with
  | case1 l₂ => rw [zaddI_nil_left]; exact h₂
  | case2 l₁ h => rw [zaddI_nil_right]; exact h₁
  | case3 k₁ vs₁ r₁ k₂ vs₂ r₂ hlt ih =>
    rw [zaddI, if_pos hlt]
    intro p hp
    rcases List.mem_cons.mp hp with h | h
    · exact h ▸ h₁ (k₁, vs₁) (List.mem_cons_self _ _)
    · exact ih (fun q hq => h₁ q (List.mem_cons_of_mem _ hq)) h₂ p h
  | case4 k₁ vs₁ r₁ k₂ vs₂ r₂ hlt hgt ih =>
    rw [zaddI, if_neg hlt, if_pos hgt]
    intro p hp
    rcases List.mem_cons.mp hp with h | h
    · exact h ▸ h₂ (k₂, vs₂) (List.mem_cons_self _ _)
    · exact ih h₁ (fun q hq => h₂ q (List.mem_cons_of_mem _ hq)) p h
  | case5 k₁ vs₁ r₁ k₂ vs₂ r₂ hlt hgt hz ih =>
    rw [zaddI, if_neg hlt, if_neg hgt, if_pos hz]
    exact ih (fun q hq => h₁ q (List.mem_cons_of_mem _ hq))
      (fun q hq => h₂ q (List.mem_cons_of_mem _ hq))
  | case6 k₁ vs₁ r₁ k₂ vs₂ r₂ hlt hgt hz ih =>
    rw [zaddI, if_neg hlt, if_neg hgt, if_neg hz]
    intro p hp
    rcases List.mem_cons.mp hp with h | h
    · exact h ▸ h₁ (k₁, vs₁) (List.mem_cons_self _ _)
    · exact ih (fun q hq => h₁ q (List.mem_cons_of_mem _ hq))
        (fun q hq => h₂ q (List.mem_cons_of_mem _ hq)) p h

omit [LinearOrder V] in
theorem strictOuter_cons_iff {p : K × List (V × Int)} {l : IZList K V} :
    StrictOuter (p :: l) ↔ (∀ q ∈ l, p.1 < q.1) ∧ StrictOuter l :=
  List.pairwise_cons

theorem strictOuter_zaddI {l₁ l₂ : IZList K V}
    (h₁ : StrictOuter l₁) (h₂ : StrictOuter l₂) :
    StrictOuter (zaddI l₁ l₂) := by
  induction l₁, l₂ using zaddI.induct with
  | case1 l₂ => rw [zaddI_nil_left]; exact h₂
  | case2 l₁ h => rw [zaddI_nil_right]; exact h₁
  | case3 k₁ vs₁ r₁ k₂ vs₂ r₂ hlt ih =>
    rw [zaddI, if_pos hlt]
    rcases strictOuter_cons_iff.mp h₁ with ⟨hb₁, ht₁⟩
    rcases strictOuter_cons_iff.mp h₂ with ⟨hb₂, ht₂⟩
    refine strictOuter_cons_iff.mpr ⟨?_, ih ht₁ h₂⟩
    refine zaddI_lower_bound hb₁ ?_
    intro p hp
    rcases List.mem_cons.mp hp with h | h
    · exact h ▸ hlt
    · exact lt_trans hlt (hb₂ p h)
  | case4 k₁ vs₁ r₁ k₂ vs₂ r₂ hlt hgt ih =>
    rw [zaddI, if_neg hlt, if_pos hgt]
    rcases strictOuter_cons_iff.mp h₁ with ⟨hb₁, ht₁⟩
    rcases strictOuter_cons_iff.mp h₂ with ⟨hb₂, ht₂⟩
    refine strictOuter_cons_iff.mpr ⟨?_, ih h₁ ht₂⟩
    refine zaddI_lower_bound ?_ hb₂
    intro p hp
    rcases List.mem_cons.mp hp with h | h
    · exact h ▸ hgt
    · exact lt_trans hgt (hb₁ p h)
  | case5 k₁ vs₁ r₁ k₂ vs₂ r₂ hlt hgt hz ih =>
    rw [zaddI, if_neg hlt, if_neg hgt, if_pos hz]
    exact ih (strictOuter_cons_iff.mp h₁).2 (strictOuter_cons_iff.mp h₂).2
  | case6 k₁ vs₁ r₁ k₂ vs₂ r₂ hlt hgt hz ih =>
    have hk₁₂ : k₁ = k₂ := le_antisymm (not_lt.mp hgt) (not_lt.mp hlt)
    subst hk₁₂
    rw [zaddI, if_neg hlt, if_neg hgt, if_neg hz]
    rcases strictOuter_cons_iff.mp h₁ with ⟨hb₁, ht₁⟩
    rcases strictOuter_cons_iff.mp h₂ with ⟨hb₂, ht₂⟩
    exact strictOuter_cons_iff.mpr ⟨zaddI_lower_bound hb₁ hb₂, ih ht₁ ht₂⟩

/-- The value leaf stored under outer key `k` ([] when absent). -/
def leafOf : IZList K V → K → List (V × Int)
  | [], _ => []
  | (k₀, vs) :: rest, k => if k₀ = k then vs else leafOf rest k

omit [LinearOrder V] in
theorem leafOf_eq_nil_of_lt {l : IZList K V} {k : K}
    (h : ∀ p ∈ l, k < p.1) : leafOf l k = [] := by
  induction l with
  | nil => rfl
  | cons p t ih =>
    obtain ⟨k₀, vs⟩ := p
    rw [leafOf, if_neg (ne_of_gt (h (k₀, vs) (List.mem_cons_self _ _)))]
    exact ih (fun q hq => h q (List.mem_cons_of_mem _ hq))

/-- Looking a key up in the merge of two (outer-sorted) indexed Z-sets gives
the leaf merge of the two lookups. -/
theorem leafOf_zaddI {l₁ l₂ : IZList K V} (h₁ : StrictOuter l₁)
    (h₂ : StrictOuter l₂) (k : K) :
    leafOf (zaddI l₁ l₂) k = push_merge (leafOf l₁ k) (leafOf l₂ k) := by
  induction l₁, l₂ using zaddI.induct with
  | case1 l₂ => rw [zaddI_nil_left, leafOf, push_merge_nil_left]
  | case2 l₁ h => rw [zaddI_nil_right]; cases l₁ <;> rw [leafOf] <;>
      rw [push_merge_nil_right]
  | case3 k₁ vs₁ r₁ k₂ vs₂ r₂ hlt ih =>
    rcases strictOuter_cons_iff.mp h₁ with ⟨hb₁, ht₁⟩
    rcases strictOuter_cons_iff.mp h₂ with ⟨hb₂, ht₂⟩
    rw [zaddI, if_pos hlt]
    by_cases hk : k₁ = k
    · subst hk
      have hy : ∀ q ∈ (k₂, vs₂) :: r₂, k₁ < q.1 := by
        intro q hq
        rcases List.mem_cons.mp hq with h | h
        · exact h ▸ hlt
        · exact lt_trans hlt (hb₂ q h)
      rw [leafOf, if_pos rfl, leafOf, if_pos rfl,
        leafOf_eq_nil_of_lt hy, push_merge_nil_right]
    · rw [leafOf, if_neg hk, leafOf, if_neg hk, ih ht₁ h₂]
  | case4 k₁ vs₁ r₁ k₂ vs₂ r₂ hlt hgt ih =>
    rcases strictOuter_cons_iff.mp h₁ with ⟨hb₁, ht₁⟩
    rcases strictOuter_cons_iff.mp h₂ with ⟨hb₂, ht₂⟩
    rw [zaddI, if_neg hlt, if_pos hgt]
    by_cases hk : k₂ = k
    · subst hk
      have hx : ∀ q ∈ (k₁, vs₁) :: r₁, k₂ < q.1 := by
        intro q hq
        rcases List.mem_cons.mp hq with h | h
        · exact h ▸ hgt
        · exact lt_trans hgt (hb₁ q h)
      rw [leafOf, if_pos rfl, leafOf_eq_nil_of_lt hx, push_merge_nil_left,
        leafOf, if_pos rfl]
    · have hy : leafOf ((k₂, vs₂) :: r₂) k = leafOf r₂ k := by
        rw [leafOf, if_neg hk]
      rw [hy, leafOf, if_neg hk, ih h₁ ht₂]
  | case5 k₁ vs₁ r₁ k₂ vs₂ r₂ hlt hgt hz ih =>
    rcases strictOuter_cons_iff.mp h₁ with ⟨hb₁, ht₁⟩
    rcases strictOuter_cons_iff.mp h₂ with ⟨hb₂, ht₂⟩
    have hk₁₂ : k₁ = k₂ := le_antisymm (not_lt.mp hgt) (not_lt.mp hlt)
    subst hk₁₂
    have hb₁' : ∀ q ∈ r₁, k₁ < q.1 := hb₁
    have hb₂' : ∀ q ∈ r₂, k₁ < q.1 := hb₂
    rw [zaddI, if_neg hlt, if_neg hgt, if_pos hz, ih ht₁ ht₂]
    by_cases hk : k₁ = k
    · subst hk
      rw [leafOf_eq_nil_of_lt hb₁', leafOf_eq_nil_of_lt hb₂',
        push_merge_nil_left, leafOf, if_pos rfl, leafOf, if_pos rfl]
      exact hz.symm
    · have e₁ : leafOf ((k₁, vs₁) :: r₁) k = leafOf r₁ k := by
        rw [leafOf, if_neg hk]
      have e₂ : leafOf ((k₁, vs₂) :: r₂) k = leafOf r₂ k := by
        rw [leafOf, if_neg hk]
      rw [e₁, e₂]
  | case6 k₁ vs₁ r₁ k₂ vs₂ r₂ hlt hgt hz ih =>
    rcases strictOuter_cons_iff.mp h₁ with ⟨hb₁, ht₁⟩
    rcases strictOuter_cons_iff.mp h₂ with ⟨hb₂, ht₂⟩
    have hk₁₂ : k₁ = k₂ := le_antisymm (not_lt.mp hgt) (not_lt.mp hlt)
    subst hk₁₂
    rw [zaddI, if_neg hlt, if_neg hgt, if_neg hz]
    by_cases hk : k₁ = k
    · subst hk
      rw [leafOf, if_pos rfl, leafOf, if_pos rfl, leafOf, if_pos rfl]
    · have e₁ : leafOf ((k₁, vs₁) :: r₁) k = leafOf r₁ k := by
        rw [leafOf, if_neg hk]
      have e₂ : leafOf ((k₁, vs₂) :: r₂) k = leafOf r₂ k := by
        rw [leafOf, if_neg hk]
      rw [leafOf, if_neg hk, e₁, e₂, ih ht₁ ht₂]

end IndexedZSet

/-- Summing a pointwise sum of two maps splits into the two sums. -/
theorem sum_map_add {α : Type} (l : List α) (f g : α → Int) :
    (l.map (fun x => f x + g x)).sum = (l.map f).sum + (l.map g).sum := by
  induction l with
  | nil => rfl
  | cons x t ih => simp only [List.map_cons, List.sum_cons, ih]; ring

section JoinCross

variable {V1 V2 Out : Type} [LinearOrder V1] [LinearOrder V2] [LinearOrder Out]

/-- The nested value loop of `Join::eval` (`src/src/operator/join.rs`, lines
194–208): for each value of the first leaf (outer loop) and each value of the
second leaf (inner loop), push `(join_func(k, v1, v2), w1 * w2)`.  `g` is the
join function applied to the shared key. -/
def cross (g : V1 → V2 → Out) (vs₁ : List (V1 × Int)) (vs₂ : List (V2 × Int)) :
    List (Out × Int) :=
  vs₁.flatMap (fun p => vs₂.map (fun q => (g p.1 q.1, p.2 * q.2)))

/-- The contribution of one first-leaf value to the pushed weight of output
key `d`. -/
def innerW (g : V1 → V2 → Out) (v₁ : V1) (vs₂ : List (V2 × Int)) (d : Out) : Int :=
  (vs₂.map (fun q => if g v₁ q.1 = d then q.2 else 0)).sum

omit [LinearOrder V1] [LinearOrder V2] in
theorem innerW_cons (g : V1 → V2 → Out) (v₁ : V1) (q : V2 × Int)
    (t : List (V2 × Int)) (d : Out) :
    innerW g v₁ (q :: t) d = (if g v₁ q.1 = d then q.2 else 0) + innerW g v₁ t d := by
  rw [innerW, List.map_cons, List.sum_cons, ← innerW]

omit [LinearOrder V1] [LinearOrder V2] in
theorem wsum_map_pair (g : V1 → V2 → Out) (p : V1 × Int)
    (vs₂ : List (V2 × Int)) (d : Out) :
    wsum (vs₂.map (fun q => (g p.1 q.1, p.2 * q.2))) d = p.2 * innerW g p.1 vs₂ d := by
  induction vs₂ with
  | nil => simp [wsum_nil, innerW]
  | cons q t ih =>
    rw [List.map_cons, wsum_cons, ih, innerW_cons]
    show (if g p.1 q.1 = d then p.2 * q.2 else 0) + p.2 * innerW g p.1 t d = _
    by_cases h : g p.1 q.1 = d
    · rw [if_pos h, if_pos h]; ring
    · rw [if_neg h, if_neg h]; ring

omit [LinearOrder V1] [LinearOrder V2] in
theorem wsum_cross (g : V1 → V2 → Out) (vs₁ : List (V1 × Int))
    (vs₂ : List (V2 × Int)) (d : Out) :
    wsum (cross g vs₁ vs₂) d = (vs₁.map (fun p => p.2 * innerW g p.1 vs₂ d)).sum := by
  induction vs₁ with
  | nil => rfl
  | cons p t ih =>
    rw [cross, List.flatMap_cons, ← cross, wsum_append, ih, List.map_cons,
      List.sum_cons, wsum_map_pair]

omit [LinearOrder V1] in
theorem innerW_push_merge (g : V1 → V2 → Out) (v₁ : V1)
    (u w : List (V2 × Int)) (d : Out) :
    innerW g v₁ (push_merge u w) d = innerW g v₁ u d + innerW g v₁ w d := by
  have := sumBy_push_merge (fun v₂ r => if g v₁ v₂ = d then r else 0)
    (by intro v₂ a b; by_cases h : g v₁ v₂ = d <;> simp [h])
    (by intro v₂; by_cases h : g v₁ v₂ = d <;> simp [h]) u w
  simpa [innerW] using this

omit [LinearOrder V1] [LinearOrder V2] in
theorem innerW_nil (g : V1 → V2 → Out) (v₁ : V1) (d : Out) :
    innerW g v₁ [] d = 0 := rfl

omit [LinearOrder V1] in
/-- `cross` is additive in the second leaf under the leaf merge. -/
theorem wsum_cross_push_merge_right (g : V1 → V2 → Out)
    (vs₁ : List (V1 × Int)) (u w : List (V2 × Int)) (d : Out) :
    wsum (cross g vs₁ (push_merge u w)) d =
      wsum (cross g vs₁ u) d + wsum (cross g vs₁ w) d := by
  rw [wsum_cross, wsum_cross, wsum_cross, ← sum_map_add]
  refine congrArg List.sum (List.map_congr_left ?_)
  intro p _
  rw [innerW_push_merge]
  ring

omit [LinearOrder V2] in
/-- `cross` is additive in the first leaf under the leaf merge. -/
theorem wsum_cross_push_merge_left (g : V1 → V2 → Out)
    (u w : List (V1 × Int)) (vs₂ : List (V2 × Int)) (d : Out) :
    wsum (cross g (push_merge u w) vs₂) d =
      wsum (cross g u vs₂) d + wsum (cross g w vs₂) d := by
  rw [wsum_cross, wsum_cross, wsum_cross]
  exact sumBy_push_merge (fun v₁ r => r * innerW g v₁ vs₂ d)
    (by intro v₁ a b; ring) (by intro v₁; ring) u w

omit [LinearOrder V1] [LinearOrder V2] in
theorem wsum_cross_nil_right (g : V1 → V2 → Out) (vs₁ : List (V1 × Int))
    (d : Out) : wsum (cross g vs₁ []) d = 0 := by
  rw [wsum_cross]
  have h0 : ∀ p ∈ vs₁, p.2 * innerW g p.1 ([] : List (V2 × Int)) d = 0 := by
    intro p _
    rw [innerW_nil, mul_zero]
  rw [List.map_congr_left h0]
  simp

omit [LinearOrder V1] [LinearOrder V2] in
theorem wsum_cross_nil_left (g : V1 → V2 → Out) (vs₂ : List (V2 × Int))
    (d : Out) : wsum (cross g [] vs₂) d = 0 := rfl

end JoinCross

section JoinWalk

variable {K V1 V2 Out : Type} [LinearOrder K] [LinearOrder V1] [LinearOrder V2]
variable [LinearOrder Out]

/-- The key merge walk of `Join::eval` (`src/src/operator/join.rs`, lines
182–217): while both cursors are valid, on `Less` the first cursor seeks to
the second's key (on sorted inputs the seek skips exactly the keys below it,
one recursion step per key here), on `Greater` symmetrically, and on `Equal`
the nested value loop pushes the cross product and both cursors step. -/
def joinTuples (f : K → V1 → V2 → Out) :
    IZList K V1 → IZList K V2 → List (Out × Int)
  | [], _ => []
  | _ :: _, [] => []
  | (k₁, vs₁) :: r₁, (k₂, vs₂) :: r₂ =>
    if k₁ < k₂ then joinTuples f r₁ ((k₂, vs₂) :: r₂)
    else if k₂ < k₁ then joinTuples f ((k₁, vs₁) :: r₁) r₂
    else cross (f k₁) vs₁ vs₂ ++ joinTuples f r₁ r₂

/-- `Join::eval`: the merge walk followed by the consolidating tuple
builder's `done()`. -/
def join_eval (f : K → V1 → V2 → Out) (x : IZList K V1) (y : IZList K V2) :
    ZList Out :=
  unorderedLeafBuilder_done (joinTuples f x y)

/-- The semantic join weight of output key `d`: every key of `x` contributes
the cross weight of its leaf against `y`'s leaf at the same key. -/
def joinW (f : K → V1 → V2 → Out) (x : IZList K V1) (y : IZList K V2)
    (d : Out) : Int :=
  (x.map (fun p => wsum (cross (f p.1) p.2 (leafOf y p.1)) d)).sum

omit [LinearOrder V1] [LinearOrder V2] in
theorem joinW_nil_left (f : K → V1 → V2 → Out) (y : IZList K V2) (d : Out) :
    joinW f [] y d = 0 := rfl

omit [LinearOrder V1] [LinearOrder V2] in
theorem joinW_nil_right (f : K → V1 → V2 → Out) (x : IZList K V1) (d : Out) :
    joinW f x [] d = 0 := by
  rw [joinW]
  have h0 : ∀ p ∈ x, wsum (cross (f p.1) p.2 (leafOf ([] : IZList K V2) p.1)) d = 0 := by
    intro p _
    rw [leafOf, wsum_cross_nil_right]
  rw [List.map_congr_left h0]
  simp

omit [LinearOrder V1] [LinearOrder V2] in
theorem joinW_skip_head (f : K → V1 → V2 → Out) {x : IZList K V1} {k₂ : K}
    {vs₂ : List (V2 × Int)} {r₂ : IZList K V2} (d : Out)
    (hx : ∀ p ∈ x, k₂ < p.1) :
    joinW f x ((k₂, vs₂) :: r₂) d = joinW f x r₂ d := by
  rw [joinW, joinW]
  refine congrArg List.sum (List.map_congr_left ?_)
  intro p hp
  rw [leafOf, if_neg (ne_of_lt (hx p hp))]

omit [LinearOrder V1] [LinearOrder V2] in
theorem joinW_cons_left (f : K → V1 → V2 → Out) (k₁ : K)
    (vs₁ : List (V1 × Int)) (r₁ : IZList K V1) (y : IZList K V2) (d : Out) :
    joinW f ((k₁, vs₁) :: r₁) y d =
      wsum (cross (f k₁) vs₁ (leafOf y k₁)) d + joinW f r₁ y d := by
  rw [joinW, List.map_cons, List.sum_cons, joinW]

omit [LinearOrder V1] [LinearOrder V2] in
/-- The merge walk pushes, for every output key, exactly the semantic join
weight, on outer-sorted inputs. -/
theorem wsum_joinTuples (f : K → V1 → V2 → Out) {x : IZList K V1}
    {y : IZList K V2} (hx : StrictOuter x) (hy : StrictOuter y) (d : Out) :
    wsum (joinTuples f x y) d = joinW f x y d := by
  induction x, y using joinTuples.induct f with
  | case1 y => rw [joinTuples, joinW_nil_left, wsum_nil]
  | case2 p r =>
    rw [joinTuples, joinW_nil_right, wsum_nil]
  | case3 k₁ vs₁ r₁ k₂ vs₂ r₂ hlt ih =>
    rcases strictOuter_cons_iff.mp hx with ⟨hb₁, ht₁⟩
    rcases strictOuter_cons_iff.mp hy with ⟨hb₂, ht₂⟩
    rw [joinTuples, if_pos hlt, ih ht₁ hy, joinW_cons_left,
      leafOf_eq_nil_of_lt (fun q hq => ?bound), wsum_cross_nil_right, zero_add]
    case bound =>
      rcases List.mem_cons.mp hq with h | h
      · exact h ▸ hlt
      · exact lt_trans hlt (hb₂ q h)
  | case4 k₁ vs₁ r₁ k₂ vs₂ r₂ hlt hgt ih =>
    rcases strictOuter_cons_iff.mp hx with ⟨hb₁, ht₁⟩
    rcases strictOuter_cons_iff.mp hy with ⟨hb₂, ht₂⟩
    rw [joinTuples, if_neg hlt, if_pos hgt, ih hx ht₂,
      joinW_skip_head f d (fun p hp => ?bound2)]
    case bound2 =>
      rcases List.mem_cons.mp hp with h | h
      · exact h ▸ hgt
      · exact lt_trans hgt (hb₁ p h)
  | case5 k₁ vs₁ r₁ k₂ vs₂ r₂ hlt hgt ih =>
    rcases strictOuter_cons_iff.mp hx with ⟨hb₁, ht₁⟩
    rcases strictOuter_cons_iff.mp hy with ⟨hb₂, ht₂⟩
    have hk₁₂ : k₁ = k₂ := le_antisymm (not_lt.mp hgt) (not_lt.mp hlt)
    subst hk₁₂
    have hb₁' : ∀ q ∈ r₁, k₁ < q.1 := hb₁
    rw [joinTuples, if_neg hlt, if_neg hgt, wsum_append, ih ht₁ ht₂,
      joinW_cons_left, leafOf, if_pos rfl,
      joinW_skip_head f d hb₁']

/-- Additivity of a per-key leaf functional over the indexed merge: the heart
of the bilinearity of the join. -/
theorem sumLeaves_zaddI {K V : Type} [LinearOrder K] [LinearOrder V]
    (ψ : K → List (V × Int) → Int)
    (hlin : ∀ k u w, ψ k (push_merge u w) = ψ k u + ψ k w)
    (hnil : ∀ k, ψ k [] = 0) (x y : IZList K V) :
    ((zaddI x y).map (fun p => ψ p.1 p.2)).sum =
      (x.map (fun p => ψ p.1 p.2)).sum + (y.map (fun p => ψ p.1 p.2)).sum := by
  induction x, y using zaddI.induct with
  | case1 y => rw [zaddI_nil_left]; simp
  | case2 x h => rw [zaddI_nil_right]; simp
  | case3 k₁ vs₁ r₁ k₂ vs₂ r₂ hlt ih =>
    rw [zaddI, if_pos hlt]
    simp only [List.map_cons, List.sum_cons] at *
    omega
  | case4 k₁ vs₁ r₁ k₂ vs₂ r₂ hlt hgt ih =>
    rw [zaddI, if_neg hlt, if_pos hgt]
    simp only [List.map_cons, List.sum_cons] at *
    omega
  | case5 k₁ vs₁ r₁ k₂ vs₂ r₂ hlt hgt hz ih =>
    rw [zaddI, if_neg hlt, if_neg hgt, if_pos hz]
    have hk₁₂ : k₁ = k₂ := le_antisymm (not_lt.mp hgt) (not_lt.mp hlt)
    subst hk₁₂
    have hzero : ψ k₁ vs₁ + ψ k₁ vs₂ = 0 := by
      rw [← hlin, hz, hnil]
    simp only [List.map_cons, List.sum_cons] at *
    omega
  | case6 k₁ vs₁ r₁ k₂ vs₂ r₂ hlt hgt hz ih =>
    rw [zaddI, if_neg hlt, if_neg hgt, if_neg hz]
    have hk₁₂ : k₁ = k₂ := le_antisymm (not_lt.mp hgt) (not_lt.mp hlt)
    subst hk₁₂
    have hsum : ψ k₁ (push_merge vs₁ vs₂) = ψ k₁ vs₁ + ψ k₁ vs₂ := hlin k₁ vs₁ vs₂
    simp only [List.map_cons, List.sum_cons] at *
    omega

omit [LinearOrder V2] in
/-- The join is additive in its first argument under the indexed merge. -/
theorem joinW_zaddI_left (f : K → V1 → V2 → Out) (x x' : IZList K V1)
    (y : IZList K V2) (d : Out) :
    joinW f (zaddI x x') y d = joinW f x y d + joinW f x' y d :=
  sumLeaves_zaddI (fun k vs => wsum (cross (f k) vs (leafOf y k)) d)
    (fun k u w => wsum_cross_push_merge_left (f k) u w (leafOf y k) d)
    (fun k => wsum_cross_nil_left (f k) (leafOf y k) d) x x'

omit [LinearOrder V1] in
/-- The join is additive in its second argument under the indexed merge, on
outer-sorted arguments. -/
theorem joinW_zaddI_right (f : K → V1 → V2 → Out) (x : IZList K V1)
    {y z : IZList K V2} (hy : StrictOuter y) (hz : StrictOuter z) (d : Out) :
    joinW f x (zaddI y z) d = joinW f x y d + joinW f x z d := by
  rw [joinW, joinW, joinW, ← sum_map_add]
  refine congrArg List.sum (List.map_congr_left ?_)
  intro p _
  rw [leafOf_zaddI hy hz, wsum_cross_push_merge_right]

end JoinWalk

section ClaimC2

variable {K V1 V2 Out : Type} [LinearOrder K] [LinearOrder V1] [LinearOrder V2]
variable [LinearOrder Out]

/-- Modelled from the spec: `delay` on a stream of indexed Z-sets (spec
§4.5.1, source file absent from the corpus): previous value, zero (empty) at
step 0. -/
def delayI {K V : Type} (s : Nat → IZList K V) : Nat → IZList K V
  | 0 => []
  | t + 1 => s t

/-- Modelled from the spec: `integrate` on a stream of indexed Z-sets (spec
§4.5.1, source file absent from the corpus): cumulative sum
`x + delay(self)`; indexed Z-set addition is the merge `zaddI`. -/
def integrateIS {K V : Type} [LinearOrder K] [LinearOrder V]
    (s : Nat → IZList K V) : Nat → IZList K V
  | 0 => zaddI (s 0) []
  | t + 1 => zaddI (s (t + 1)) (integrateIS s t)

omit [LinearOrder V1] [LinearOrder V2] [LinearOrder Out] in
theorem strictOuter_integrateIS {V : Type} [LinearOrder V]
    {s : Nat → IZList K V} (hs : ∀ u, StrictOuter (s u)) :
    ∀ t, StrictOuter (integrateIS s t)
  | 0 => by rw [integrateIS, zaddI_nil_right]; exact hs 0
  | t + 1 => strictOuter_zaddI (hs (t + 1)) (strictOuter_integrateIS hs t)

omit [LinearOrder V1] [LinearOrder V2] [LinearOrder Out] in
theorem strictOuter_delayI {V : Type} [LinearOrder V]
    {s : Nat → IZList K V} (hs : ∀ u, StrictOuter (s u)) :
    ∀ t, StrictOuter (delayI s t)
  | 0 => List.Pairwise.nil
  | t + 1 => hs t

/-- `join_incremental` (`src/src/operator/join.rs`, lines 65–80):
`self.integrate().delay().join(other, f).plus(self.join(other.integrate(), f))`;
`plus` is pointwise Z-set addition, the leaf merge. -/
def join_incremental (f : K → V1 → V2 → Out) (a : Nat → IZList K V1)
    (b : Nat → IZList K V2) (t : Nat) : ZList Out :=
  push_merge (join_eval f (delayI (integrateIS a) t) (b t))
    (join_eval f (a t) (integrateIS b t))

/-- The spec formula `a ⋈ z⁻¹(B) + z⁻¹(A) ⋈ b + a ⋈ b`. -/
def join_spec3 (f : K → V1 → V2 → Out) (a : Nat → IZList K V1)
    (b : Nat → IZList K V2) (t : Nat) : ZList Out :=
  push_merge
    (push_merge (join_eval f (a t) (delayI (integrateIS b) t))
      (join_eval f (delayI (integrateIS a) t) (b t)))
    (join_eval f (a t) (b t))

/-- The reference pipeline `differentiate(integrate(a) join integrate(b))`. -/
def join_diff (f : K → V1 → V2 → Out) (a : Nat → IZList K V1)
    (b : Nat → IZList K V2) (t : Nat) : ZList Out :=
  differentiateS (fun u => join_eval f (integrateIS a u) (integrateIS b u)) t

omit [LinearOrder V1] [LinearOrder V2] in
theorem wsum_join_eval (f : K → V1 → V2 → Out) {x : IZList K V1}
    {y : IZList K V2} (hx : StrictOuter x) (hy : StrictOuter y) (d : Out) :
    wsum (join_eval f x y) d = joinW f x y d := by
  rw [join_eval, unorderedLeafBuilder_done, wsum_consolidate_slice,
    wsum_joinTuples f hx hy]

omit [LinearOrder V1] [LinearOrder V2] in
theorem isZSet_join_eval (f : K → V1 → V2 → Out) (x : IZList K V1)
    (y : IZList K V2) : IsZSet (join_eval f x y) := by
  rw [join_eval, unorderedLeafBuilder_done]
  exact isZSet_consolidate_slice _

/-- C2: For every pair of input streams `a`, `b` of (valid) indexed Z-sets,
the output of `join_incremental` at every step equals
`a ⋈ z⁻¹(B) + z⁻¹(A) ⋈ b + a ⋈ b` (where `A`, `B` are the integrals of `a`,
`b`), and equally the differentiation of `integrate(a) ⋈ integrate(b)`, at
every step. -/
theorem join_incremental_equiv (f : K → V1 → V2 → Out)
    (a : Nat → IZList K V1) (b : Nat → IZList K V2)
    (ha : ∀ u, IsIZSet (a u)) (hb : ∀ u, IsIZSet (b u)) (t : Nat) :
    join_incremental f a b t = join_spec3 f a b t ∧
      join_incremental f a b t = join_diff f a b t := by
  have hao : ∀ u, StrictOuter (a u) := fun u => (ha u).1
  have hbo : ∀ u, StrictOuter (b u) := fun u => (hb u).1
  have hIA : ∀ u, StrictOuter (integrateIS a u) := strictOuter_integrateIS hao
  have hIB : ∀ u, StrictOuter (integrateIS b u) := strictOuter_integrateIS hbo
  have hDA : ∀ u, StrictOuter (delayI (integrateIS a) u) := strictOuter_delayI hIA
  have hDB : ∀ u, StrictOuter (delayI (integrateIS b) u) := strictOuter_delayI hIB
  have hzinc : IsZSet (join_incremental f a b t) :=
    isZSet_push_merge (isZSet_join_eval f _ _) (isZSet_join_eval f _ _)
  have hwinc : ∀ d, wsum (join_incremental f a b t) d =
      joinW f (delayI (integrateIS a) t) (b t) d +
        joinW f (a t) (integrateIS b t) d := by
    intro d
    rw [join_incremental, wsum_push_merge, wsum_join_eval f (hDA t) (hbo t),
      wsum_join_eval f (hao t) (hIB t)]
  have hIB_succ : ∀ u, integrateIS b (u + 1) = zaddI (b (u + 1)) (integrateIS b u) :=
    fun u => rfl
  have hIA_succ : ∀ u, integrateIS a (u + 1) = zaddI (a (u + 1)) (integrateIS a u) :=
    fun u => rfl
  have hIB_zero : integrateIS b 0 = b 0 := by rw [integrateIS, zaddI_nil_right]
  have hIA_zero : integrateIS a 0 = a 0 := by rw [integrateIS, zaddI_nil_right]
  constructor
  · refine zlist_ext hzinc
      (isZSet_push_merge (isZSet_push_merge (isZSet_join_eval f _ _)
        (isZSet_join_eval f _ _)) (isZSet_join_eval f _ _)) (fun d => ?_)
    rw [hwinc d, join_spec3, wsum_push_merge, wsum_push_merge,
      wsum_join_eval f (hao t) (hDB t), wsum_join_eval f (hDA t) (hbo t),
      wsum_join_eval f (hao t) (hbo t)]
    cases t with
    | zero =>
      rw [delayI, delayI, joinW_nil_left, joinW_nil_right, hIB_zero]
      omega
    | succ u =>
      rw [delayI, delayI, hIB_succ u,
        joinW_zaddI_right f (a (u + 1)) (hbo (u + 1)) (hIB u)]
      omega
  · refine zlist_ext hzinc ?_ (fun d => ?_)
    · rw [join_diff, differentiateS]
      refine isZSet_push_merge (isZSet_join_eval f _ _) (isZSet_zneg ?_)
      exact isZSet_delayS (fun u => isZSet_join_eval f _ _) t
    · rw [hwinc d, join_diff, differentiateS, wsum_push_merge, wsum_zneg,
        wsum_join_eval f (hIA t) (hIB t)]
      cases t with
      | zero =>
        rw [delayS, wsum_nil, hIA_zero, hIB_zero, delayI, joinW_nil_left]
        omega
      | succ u =>
        rw [delayS, delayI, wsum_join_eval f (hIA u) (hIB u), hIA_succ u,
          joinW_zaddI_left, hIB_succ u,
          joinW_zaddI_right f (a (u + 1)) (hbo (u + 1)) (hIB u),
          joinW_zaddI_right f (integrateIS a u) (hbo (u + 1)) (hIB u)]
        omega

/-- Concrete input streams and join function for the C2 witness (scenario S2
shaped): key 1 with numeric values; `f k u v = 10 * u + v`. -/
def streamA2 : Nat → IZList Nat Nat
  | 0 => [(1, [(1, 1)])]
  | 1 => [(1, [(2, 1)])]
  | _ + 2 => []

def streamB2 : Nat → IZList Nat Nat
  | 0 => [(1, [(5, 1)])]
  | 1 => [(1, [(6, 1)])]
  | _ + 2 => []

theorem streamA2_valid : ∀ u, IsIZSet (streamA2 u)
  | 0 => by decide
  | 1 => by decide
  | _ + 2 => ⟨List.Pairwise.nil, by simp [streamA2]⟩

theorem streamB2_valid : ∀ u, IsIZSet (streamB2 u)
  | 0 => by decide
  | 1 => by decide
  | _ + 2 => ⟨List.Pairwise.nil, by simp [streamB2]⟩

/-- Witness for C2: the concrete streams above, checked at step 1. -/
theorem join_incremental_equiv_witness :
    (∀ u, IsIZSet (streamA2 u)) ∧ (∀ u, IsIZSet (streamB2 u)) ∧
      (join_incremental (fun _ u v => 10 * u + v) streamA2 streamB2 1 =
          join_spec3 (fun _ u v => 10 * u + v) streamA2 streamB2 1 ∧
        join_incremental (fun _ u v => 10 * u + v) streamA2 streamB2 1 =
          join_diff (fun _ u v => 10 * u + v) streamA2 streamB2 1) :=
  ⟨streamA2_valid, streamB2_valid,
    join_incremental_equiv (fun _ u v => 10 * u + v) streamA2 streamB2
      streamA2_valid streamB2_valid 1⟩

end ClaimC2

end DBSP
